import Mathlib

/-!
Verification of the pixelized linear-inversion core of PyAutoLens.

The development shallowly embeds the two relevant source modules:

* `auto_lens/pixelization/covariance_matrix.py` — sparse covariance (curvature)
  matrix generation via memoized breadth-first search over the source-plane
  adjacency graph;
* `autolens/inversion/inversions.py` — data-vector / curvature-matrix assembly
  and the Cholesky log-determinant error path.

Python floats are modelled by `ℚ` (all the operations appearing in the claims
are field operations plus floor division, which are exact on rationals);
Python dicts keyed by pixel indices are modelled by association lists (which
keep insertion order, as Python dicts do) or, where the algorithm only ever
looks keys up and overwrites them, by functions into `Option ℚ`; Python sets
by `Finset ℕ`; raised exceptions by `Except` / `Option` results.
-/

/-- Python's floor division `x // y` on floats: the floor of the true
quotient, as a rational. (Python raises `ZeroDivisionError` for `y = 0`;
the claims below only ever divide by nonzero noise values.) -/
def fdiv (x y : ℚ) : ℚ := ((⌊x / y⌋ : ℤ) : ℚ)

/-- A convolved pixel map `{int: float}`: the contribution each observation
pixel receives from one reconstruction (source) pixel. -/
abbrev PixelMap : Type := List (ℕ × ℚ)

/-- Dictionary lookup: the value stored under key `i`, if any (`i in d`
tests `isSome`; `d[i]` reads the value). -/
def plookup (i : ℕ) : List (ℕ × ℚ) → Option ℚ
  | [] => none
  | p :: t => if p.1 = i then some p.2 else plookup i t

/-- Lookup in a pixel map with default 0 (`pixel_map[i]` on a present key). -/
def pmval (m : PixelMap) (i : ℕ) : ℚ := ((plookup i m).getD 0)

/-- A dictionary keyed by index pairs, `{(int, int): float}`.  The algorithm
only ever tests membership, reads and overwrites such dicts, so a function
into `Option ℚ` is a faithful model. -/
abbrev PairDict : Type := ℕ × ℕ → Option ℚ

/-- `d[k] = v` on a pair-keyed dict. -/
def dictSet (d : PairDict) (k : ℕ × ℕ) (v : ℚ) : PairDict :=
  fun k2 => if k2 = k then some v else d k2

/-- Lookup with default 0 in a row of a 2-d rational array. -/
def getq (l : List ℚ) (i : ℕ) : ℚ := l.getD i 0

/-- A dense rational matrix (list of rows). -/
abbrev Matq : Type := List (List ℚ)

/-- Entry `(i, j)` of a dense matrix, default 0. -/
def get2 (m : Matq) (i j : ℕ) : ℚ := getq (m.getD i []) j

/-- In-place style update `m[i][j] = v` (no-op out of range, which the
theorems below exclude by shape hypotheses). -/
def set2 (m : Matq) (i j : ℕ) (v : ℚ) : Matq := m.set i ((m.getD i []).set j v)

/-! ## covariance_matrix.py -/

/-- Adding `v` to key `k` of a `{int: float}` dict, inserting the key at the
end when absent — the two branches of

```
if sub_to_image[i] in f[sub_to_source[i]]:
    f[sub_to_source[i]][sub_to_image[i]] += sub_grid_fraction
else:
    f[sub_to_source[i]][sub_to_image[i]] = sub_grid_fraction
``` -/
def dict_increment (m : PixelMap) (k : ℕ) (v : ℚ) : PixelMap :=
  if (plookup k m).isSome then
    m.map (fun p => if p.1 = k then (p.1, p.2 + v) else p)
  else
    m ++ [(k, v)]

/-- `create_mapping_matrix` from `covariance_matrix.py`: fold of the
sub-pixel loop over `range(total_sub_pixels)` starting from
`f = [{} for _ in range(source_pixel_total)]`. -/
def create_mapping_matrix (source_pixel_total image_pixel_total sub_grid_size : ℕ)
    (sub_to_source sub_to_image : List ℕ) : List PixelMap :=
  let total_sub_pixels := image_pixel_total * sub_grid_size ^ 2
  let sub_grid_fraction : ℚ := (1 / (sub_grid_size : ℚ)) ^ 2
  (List.range total_sub_pixels).foldl
    (fun f i =>
      f.set (sub_to_source.getD i 0)
        (dict_increment (f.getD (sub_to_source.getD i 0) []) (sub_to_image.getD i 0)
          sub_grid_fraction))
    (List.replicate source_pixel_total [])

/-- `create_d_matrix` from `covariance_matrix.py`.  Note the source uses
Python floor division: `value += image_vector[index] * pixel_map[index]
// noise_vector[index]`. -/
def create_d_matrix (pixel_maps : List PixelMap) (noise_vector image_vector : List ℚ) :
    List ℚ :=
  pixel_maps.map (fun pixel_map =>
    pixel_map.foldl
      (fun value p => value + fdiv (image_vector.getD p.1 0 * p.2) (noise_vector.getD p.1 0))
      0)

/-- The read-only attributes of a `CovarianceMatrixGenerator`
(`pixel_maps`, `noise_vector`, `graph`, `neighbour_search_limit`). -/
structure CovarianceMatrixGenerator where
  pixel_maps : List PixelMap
  noise_vector : List ℚ
  graph : List (List ℕ)
  neighbour_search_limit : ℚ

/-- The mutable attributes of a `CovarianceMatrixGenerator`
(`calculated_covariances`, `non_zero_covariances`, `neighbour_lists`). -/
structure GenState where
  calculated_covariances : PairDict
  non_zero_covariances : PairDict
  neighbour_lists : List (List ℕ)

/-- The attribute initializations performed by `__init__`. -/
def initial_state (P : CovarianceMatrixGenerator) : GenState :=
  { calculated_covariances := fun _ => none
    non_zero_covariances := fun _ => none
    neighbour_lists := List.replicate P.pixel_maps.length [] }

/-- `CovarianceMatrixGenerator.calculate_covariance`:

```
return sum([mapping_dict_1[i] * mapping_dict_2[i] // self.noise_vector[i]
            for i in mapping_dict_1.keys() if i in mapping_dict_2])
``` -/
def calculate_covariance (P : CovarianceMatrixGenerator) (source_index_a source_index_b : ℕ) :
    ℚ :=
  let mapping_dict_1 := P.pixel_maps.getD source_index_a []
  let mapping_dict_2 := P.pixel_maps.getD source_index_b []
  (mapping_dict_1.filterMap (fun p =>
    (plookup p.1 mapping_dict_2).map (fun w =>
      fdiv (p.2 * w) (P.noise_vector.getD p.1 0)))).sum

/-- The covariance formula as the specification states it (§4.2):
`F[i,j] = Σ_k pixel_map_i[k] · pixel_map_j[k] / noise[k]`, with `/` true
division, summed over the keys present in both maps.  Kept separate from
`calculate_covariance` (which embeds the source) so the two can be compared. -/
def calculate_covariance_spec (P : CovarianceMatrixGenerator)
    (source_index_a source_index_b : ℕ) : ℚ :=
  let mapping_dict_1 := P.pixel_maps.getD source_index_a []
  let mapping_dict_2 := P.pixel_maps.getD source_index_b []
  (mapping_dict_1.filterMap (fun p =>
    (plookup p.1 mapping_dict_2).map (fun w =>
      p.2 * w / P.noise_vector.getD p.1 0))).sum

/-- `CovarianceMatrixGenerator.add_covariance_for_indices`: return the cached
value for `(a, b)` if present; otherwise take the cached `(b, a)` value or
compute afresh, store it under `(a, b)`, and return it.  Returns the value
together with the updated mutable state. -/
def add_covariance_for_indices (P : CovarianceMatrixGenerator) (g : GenState)
    (source_index_a source_index_b : ℕ) : ℚ × GenState :=
  match g.calculated_covariances (source_index_a, source_index_b) with
  | some v => (v, g)
  | none =>
    let value :=
      match g.calculated_covariances (source_index_b, source_index_a) with
      | some v => v
      | none => calculate_covariance P source_index_a source_index_b
    (value,
      { g with
        calculated_covariances :=
          dictSet g.calculated_covariances (source_index_a, source_index_b) value })

/-- The mutable state of a `BreadthFirstSearch` object: the `visited` set and
the FIFO `queue` (front of the list = front of the queue). -/
structure BreadthFirstSearch where
  visited : Finset ℕ
  queue : List ℕ

/-- `BreadthFirstSearch.add_neighbours_of`: mark `index` visited, then
enqueue every not-yet-visited neighbour, marking each visited as it is
enqueued. -/
def add_neighbours_of (graph : List (List ℕ)) (index : ℕ) (b : BreadthFirstSearch) :
    BreadthFirstSearch :=
  (graph.getD index []).foldl
    (fun st n =>
      if n ∈ st.visited then st
      else { visited := insert n st.visited, queue := st.queue ++ [n] })
    { b with visited := insert index b.visited }

/-- The `for index in bfs.neighbours()` loop of `find_contiguous_covariances`,
with an explicit fuel argument.  The Python generator pops the queue until it
is empty; `find_contiguous_loop_drains` below proves that the fuel supplied by
`find_contiguous_covariances` always empties the queue, so the fuelled loop
computes exactly the Python loop. -/
def find_contiguous_covariances_loop (P : CovarianceMatrixGenerator) (source_index : ℕ) :
    ℕ → GenState → BreadthFirstSearch → GenState × BreadthFirstSearch
  | 0, g, b => (g, b)
  | fuel + 1, g, b =>
    match b.queue with
    | [] => (g, b)
    | index :: rest =>
      let r := add_covariance_for_indices P g source_index index
      if P.neighbour_search_limit < r.1 then
        find_contiguous_covariances_loop P source_index fuel
          { r.2 with
            neighbour_lists :=
              r.2.neighbour_lists.set source_index
                ((r.2.neighbour_lists.getD source_index []) ++ [index])
            non_zero_covariances :=
              dictSet r.2.non_zero_covariances (source_index, index) r.1 }
          (add_neighbours_of P.graph index { b with queue := rest })
      else
        find_contiguous_covariances_loop P source_index fuel r.2 { b with queue := rest }

/-- Fuel that provably drains the queue: current queue length plus the number
of graph vertices that can still be enqueued, plus one. -/
def bfs_fuel (graph : List (List ℕ)) (b : BreadthFirstSearch) : ℕ :=
  b.queue.length + (graph.flatten.toFinset \ b.visited).card + 1

/-- `CovarianceMatrixGenerator.find_contiguous_covariances`: record the
diagonal `(s, s)` unconditionally, seed a breadth-first search at `s`, and
run the threshold-pruned traversal. -/
def find_contiguous_covariances (P : CovarianceMatrixGenerator) (source_index : ℕ)
    (g : GenState) : GenState :=
  let r := add_covariance_for_indices P g source_index source_index
  let g2 :=
    { r.2 with
      non_zero_covariances :=
        dictSet r.2.non_zero_covariances (source_index, source_index) r.1 }
  let bfs := add_neighbours_of P.graph source_index ⟨∅, []⟩
  (find_contiguous_covariances_loop P source_index (bfs_fuel P.graph bfs) g2 bfs).1

/-- `CovarianceMatrixGenerator.find_all_contiguous_covariances`. -/
def find_all_contiguous_covariances (P : CovarianceMatrixGenerator) (g : GenState) :
    GenState :=
  (List.range P.pixel_maps.length).foldl
    (fun g2 index => find_contiguous_covariances P index g2) g

/-- One innermost iteration of `find_all_non_contiguous_covariances`:

```
if a != b:
    result = self.add_covariance_for_indices(a, b)
    if result > 0:
        self.non_zero_covariances[(a, b)] = result
``` -/
def non_contiguous_step (P : CovarianceMatrixGenerator) (a b : ℕ) (g : GenState) : GenState :=
  if a ≠ b then
    let r := add_covariance_for_indices P g a b
    if 0 < r.1 then
      { r.2 with non_zero_covariances := dictSet r.2.non_zero_covariances (a, b) r.1 }
    else r.2
  else g

/-- `CovarianceMatrixGenerator.find_all_non_contiguous_covariances`: the
triple loop over neighbour lists and ordered pairs drawn from each list. -/
def find_all_non_contiguous_covariances (P : CovarianceMatrixGenerator) (g : GenState) :
    GenState :=
  g.neighbour_lists.foldl
    (fun g1 l => l.foldl (fun g2 a => l.foldl (fun g3 b => non_contiguous_step P a b g3) g2) g1)
    g

/-- The generator state after `find_all_contiguous_covariances`, starting
from a fresh generator. -/
def contiguous_pass_state (pixel_maps : List PixelMap) (noise_vector : List ℚ)
    (graph : List (List ℕ)) (neighbour_search_limit : ℚ) : GenState :=
  let P : CovarianceMatrixGenerator := ⟨pixel_maps, noise_vector, graph, neighbour_search_limit⟩
  find_all_contiguous_covariances P (initial_state P)

/-- Module-level `create_covariance_matrix`: build a generator, run the
contiguous passes then the non-contiguous pass, and return
`generator.non_zero_covariances`. -/
def create_covariance_matrix (pixel_maps : List PixelMap) (noise_vector : List ℚ)
    (graph : List (List ℕ)) (neighbour_search_limit : ℚ) : PairDict :=
  let P : CovarianceMatrixGenerator := ⟨pixel_maps, noise_vector, graph, neighbour_search_limit⟩
  (find_all_non_contiguous_covariances P
    (contiguous_pass_state pixel_maps noise_vector graph neighbour_search_limit)).non_zero_covariances

/-- A trace of the `BreadthFirstSearch` protocol used by
`find_contiguous_covariances`: the object is created, `add_neighbours_of seed`
is called, and then an arbitrary further sequence of `add_neighbours_of`
calls is made (in the source, one per candidate that passes the threshold).
Returns the final search state together with the log of every index ever
enqueued, in order.  Since `add_neighbours_of` only appends to the queue, the
newly enqueued indices of one call are the queue suffix it adds; the
generator `neighbours()` only ever pops previously enqueued indices, so a
bound on the log bounds the number of candidates the generator can yield. -/
def bfs_enqueue_log (graph : List (List ℕ)) (seed : ℕ) (calls : List ℕ) :
    BreadthFirstSearch × List ℕ :=
  let b0 := add_neighbours_of graph seed ⟨∅, []⟩
  calls.foldl
    (fun p c =>
      let b2 := add_neighbours_of graph c p.1
      (b2, p.2 ++ b2.queue.drop p.1.queue.length))
    (b0, b0.queue)

/-! ## inversions.py -/

/-- The exceptions relevant to the inversion code path:
`numpy.linalg.LinAlgError` (raised by `np.linalg.solve` on a singular matrix
and by `np.linalg.cholesky` on a non-positive-definite matrix) and
`autolens.exc.InversionException`.  Modelled from the spec: the class body of
`InversionException` (module `autolens/exc.py`) is not among the sources; the
spec's error taxonomy (§7) names it `InversionError`, a typed error distinct
from the numerical library's own exception. -/
inductive PyError where
  | linAlgError : PyError
  | inversionException : PyError
deriving DecidableEq

/-- Elementwise `np.add` of two equally-shaped dense matrices. -/
def mat_add (a b : Matq) : Matq :=
  List.zipWith (fun r s => List.zipWith (fun x y => x + y) r s) a b

/-- Laplace-expansion determinant of a dense rational matrix.  Used to model
the exact-arithmetic contract of `numpy`'s LU-based routines: in exact
arithmetic LU factorization with pivoting fails exactly on singular
matrices. -/
def detq (m : Matq) : ℚ :=
  match m with
  | [] => 1
  | row :: rest =>
    ((List.range row.length).map (fun j =>
      (-1 : ℚ) ^ j * row.getD j 0 * detq (rest.map (fun r => r.eraseIdx j)))).sum
termination_by m.length
decreasing_by simp [List.length_map]

/-- Column `j` of `a` replaced by `b` (for Cramer's rule). -/
def replace_column (a : Matq) (j : ℕ) (b : List ℚ) : Matq :=
  (List.zip a b).map (fun p => p.1.set j p.2)

/-- Model of `np.linalg.solve a b`: raises `LinAlgError` ("Singular matrix")
exactly when `a` is singular, and otherwise returns the unique solution of
`a · x = b` (written via Cramer's rule; `numpy` computes it by LU
factorization, which agrees on nonsingular input). -/
def np_linalg_solve (a : Matq) (b : List ℚ) : Option (List ℚ) :=
  if detq a = 0 then none
  else some ((List.range a.length).map (fun j => detq (replace_column a j b) / detq a))

/-- `data_vector_from_blurred_mapping_matrix_and_data` from `inversions.py`:
the two nested accumulation loops

```
for image_index in range(mapping_shape[0]):
    for pix_index in range(mapping_shape[1]):
        data_vector[pix_index] += image[image_index] * \
            blurred_mapping_matrix[image_index, pix_index] / (noise_map[image_index] ** 2.0)
```

over `data_vector = np.zeros(mapping_shape[1])`. -/
def data_vector_from_blurred_mapping_matrix_and_data (blurred_mapping_matrix : Matq)
    (image noise_map : List ℚ) : List ℚ :=
  let rows := blurred_mapping_matrix.length
  let cols := (blurred_mapping_matrix.getD 0 []).length
  (List.range rows).foldl
    (fun dv image_index =>
      (List.range cols).foldl
        (fun dv2 pix_index =>
          dv2.set pix_index
            (getq dv2 pix_index +
              image.getD image_index 0 * get2 blurred_mapping_matrix image_index pix_index /
                (noise_map.getD image_index 0) ^ 2))
        dv)
    (List.replicate cols 0)

/-- The running buffers of `curvature_matrix_from_blurred_mapping_matrix_jit`:
`flist`, `iflist` (reused across image-pixel iterations; entry 0 of each is
never written and stays at its zero initialization) and the accumulating
curvature matrix. -/
structure CurvatureBuffers where
  flist : List ℚ
  iflist : List ℕ
  curvature : Matq

/-- `curvature_matrix_from_blurred_mapping_matrix` (wrapper plus jit body)
from `inversions.py`: per image pixel, collect the positive mapping entries
scaled by inverse noise into `flist`/`iflist` (starting at slot 1 — `index`
is incremented before the first write), accumulate their pairwise products
into the curvature matrix, and finally run the in-place symmetrization copy
`curvature_matrix[i, j] = curvature_matrix[j, i]`. -/
def curvature_matrix_from_blurred_mapping_matrix (blurred_mapping_matrix : Matq)
    (noise_map : List ℚ) : Matq :=
  let rows := blurred_mapping_matrix.length
  let cols := (blurred_mapping_matrix.getD 0 []).length
  let start : CurvatureBuffers :=
    ⟨List.replicate rows 0, List.replicate rows 0,
      List.replicate cols (List.replicate cols 0)⟩
  let after :=
    (List.range rows).foldl
      (fun acc image_index =>
        let scan :=
          (List.range cols).foldl
            (fun (t : ℕ × List ℚ × List ℕ) pixel_index =>
              if 0 < get2 blurred_mapping_matrix image_index pixel_index then
                (t.1 + 1,
                  t.2.1.set (t.1 + 1)
                    (get2 blurred_mapping_matrix image_index pixel_index /
                      noise_map.getD image_index 0),
                  t.2.2.set (t.1 + 1) pixel_index)
              else t)
            (0, acc.flist, acc.iflist)
        let curv :=
          if 0 < scan.1 then
            (List.range (scan.1 + 1)).foldl
              (fun c i1 =>
                (List.range (scan.1 + 1)).foldl
                  (fun c2 j1 =>
                    let ix := scan.2.2.getD i1 0
                    let iy := scan.2.2.getD j1 0
                    set2 c2 ix iy (get2 c2 ix iy + scan.2.1.getD i1 0 * scan.2.1.getD j1 0))
                  c)
              acc.curvature
          else acc.curvature
        ⟨scan.2.1, scan.2.2, curv⟩)
      start
  (List.range cols).foldl
    (fun c i => (List.range cols).foldl (fun c2 j => set2 c2 i j (get2 c2 j i)) c)
    after.curvature

/-- The matrices and solution assembled by one inversion (`Inversion.__init__`
stores exactly these attributes). -/
structure Inversion where
  blurred_mapping_matrix : Matq
  regularization_matrix : Matq
  curvature_matrix : Matq
  curvature_reg_matrix : Matq
  solution_vector : List ℚ

/-- `inversion_from_mapper_regularization_and_data` from `inversions.py`.
The convolver and regularization collaborators are external to this core
(spec §1/§6): the function receives their outputs — the blurred mapping
matrix `convolver.convolve_mapping_matrix(mapper.mapping_matrix)` and the
regularization matrix
`regularization.regularization_matrix_from_pixel_neighbors(...)` — as
arguments.  A raised exception is an `Except.error`: `np.linalg.solve`
raises `numpy.linalg.LinAlgError` on a singular `F + H`, and nothing in this
construction path raises `InversionException`. -/
def inversion_from_mapper_regularization_and_data (blurred_mapping_matrix : Matq)
    (image noise_map : List ℚ) (regularization_matrix : Matq) : Except PyError Inversion :=
  let data_vector :=
    data_vector_from_blurred_mapping_matrix_and_data blurred_mapping_matrix image noise_map
  let curvature_matrix :=
    curvature_matrix_from_blurred_mapping_matrix blurred_mapping_matrix noise_map
  let curvature_reg_matrix := mat_add curvature_matrix regularization_matrix
  match np_linalg_solve curvature_reg_matrix data_vector with
  | none => Except.error PyError.linAlgError
  | some solution_vector =>
    Except.ok
      ⟨blurred_mapping_matrix, regularization_matrix, curvature_matrix, curvature_reg_matrix,
        solution_vector⟩

/-- Model of `np.linalg.cholesky`: the square-root-free (LDLᵀ) pivots of the
decomposition.  LAPACK's `potrf` fails — raising `LinAlgError` — exactly when
it meets a non-positive pivot `a_jj - Σ_k l_jk²`, which in exact arithmetic is
the `j`-th pivot of the Schur-complement recursion below; on success the
Cholesky diagonal is the list of square roots of these pivots. -/
def cholesky_pivots (m : Matq) : Option (List ℚ) :=
  match m with
  | [] => some []
  | row :: rest =>
    let p := row.getD 0 0
    if p ≤ 0 then none
    else
      let schur :=
        rest.map (fun r =>
          (List.range (r.length - 1)).map (fun j =>
            r.getD (j + 1) 0 - r.getD 0 0 * row.getD (j + 1) 0 / p))
      (cholesky_pivots schur).map (fun ds => p :: ds)
termination_by m.length
decreasing_by simp [List.length_map]

/-- `Inversion.log_determinant_of_matrix_cholesky`:

```
try:
    return 2.0 * np.sum(np.log(np.diag(np.linalg.cholesky(matrix))))
except np.linalg.LinAlgError:
    raise exc.InversionException()
```

The returned quantity is `log det`, which is transcendental; the rational
embedding returns the Cholesky pivot list (whose product is the determinant,
so the source's return value is the sum of the logs of these pivots), which
suffices for all claims about this function — they concern only which inputs
raise `InversionException`. -/
def log_determinant_of_matrix_cholesky (matrix : Matq) : Except PyError (List ℚ) :=
  match cholesky_pivots matrix with
  | none => Except.error PyError.inversionException
  | some ds => Except.ok ds

/-- The `Inversion.log_det_curvature_reg_matrix_term` property: the
log-determinant of `F + H`, lazily computed on attribute access, propagating
any `InversionException` to the caller. -/
def log_det_curvature_reg_matrix_term (inv : Inversion) : Except PyError (List ℚ) :=
  log_determinant_of_matrix_cholesky inv.curvature_reg_matrix

/-- The `Inversion.log_det_regularization_matrix_term` property. -/
def log_det_regularization_matrix_term (inv : Inversion) : Except PyError (List ℚ) :=
  log_determinant_of_matrix_cholesky inv.regularization_matrix

/-! ## Regularization matrix builder (spec §4.3) -/

/-- Modelled from the spec: `setup_regularization_matrix_via_pixel_pairs`.
The module that defines it (`auto_lens/pixelization/pixelization.py`) is not
among the sources — only its test
(`test_pixelization.py`, `TestRegularizationMatrix`) is.  Spec §4.3: starting
from a zero matrix, accumulate for each undirected pair `(a, b)` and each of
its two directions: for `a→b`, `H[a,a] += weight[a]²`, `H[b,b] += weight[a]²`,
`H[a,b] -= weight[a]²`, `H[b,a] -= weight[a]²`, and the mirrored terms for
`b→a` using `weight[b]²`.  The `no_vertices` (neighbor-count) argument is part
of the call signature used by the tests; the spec's accumulation rule does not
consult it (its §4.3 edge case — pixels with `neighbor_count == 0` contribute
no off-diagonal terms — already follows from such pixels appearing in no
pair).  `regularization_direction` performs the four accumulations of one
direction `a→b` with squared weight `w2`. -/
def regularization_direction (h : Matq) (a b : ℕ) (w2 : ℚ) : Matq :=
  let h1 := set2 h a a (get2 h a a + w2)
  let h2 := set2 h1 b b (get2 h1 b b + w2)
  let h3 := set2 h2 a b (get2 h2 a b - w2)
  set2 h3 b a (get2 h3 b a - w2)

/-- Modelled from the spec (continued): the full builder accumulates both
directions of every listed pair into an initially zero matrix. -/
def setup_regularization_matrix_via_pixel_pairs (dimension : ℕ)
    (regularization_weights : List ℚ) (no_vertices : List ℕ)
    (pixel_pairs : List (ℕ × ℕ)) : Matq :=
  pixel_pairs.foldl
    (fun (h : Matq) (ab : ℕ × ℕ) =>
      regularization_direction
        (regularization_direction h ab.1 ab.2 ((regularization_weights.getD ab.1 0) ^ 2))
        ab.2 ab.1 ((regularization_weights.getD ab.2 0) ^ 2))
    (List.replicate dimension (List.replicate dimension 0))

/-- Matrix transpose (for replaying the repository's own regularization-matrix
test, which checks the builder against `np.matmul(test_b_matrix.T,
test_b_matrix)`). -/
def mat_transpose (a : Matq) : Matq :=
  (List.range ((a.getD 0 []).length)).map (fun j => a.map (fun r => r.getD j 0))

/-- Matrix product `a · c` of dense rational matrices. -/
def mat_mul (a c : Matq) : Matq :=
  a.map (fun row =>
    (List.range ((c.getD 0 []).length)).map (fun j =>
      ((List.range row.length).map (fun k => row.getD k 0 * get2 c k j)).sum))

/-- The correctness invariant threaded through the generator's execution: a
pair-keyed dict only ever holds, under key `(a, b)`, the value
`calculate_covariance a b`.  It holds for both mutable dicts of the generator
at every point of the pipeline. -/
def pairdict_ok (P : CovarianceMatrixGenerator) (d : PairDict) : Prop :=
  ∀ a b v, d (a, b) = some v → v = calculate_covariance P a b

/-! ## Basic helper lemmas -/

theorem getq_nil (i : ℕ) : getq [] i = 0 := rfl

theorem getq_replicate (n i : ℕ) : getq (List.replicate n 0) i = 0 := by
  induction n generalizing i with
  | zero => rfl
  | succ m ih =>
    cases i with
    | zero => rfl
    | succ j => simpa [getq, List.replicate, List.getD] using ih j

theorem getq_set_eq (l : List ℚ) (i : ℕ) (v : ℚ) (h : i < l.length) :
    getq (l.set i v) i = v := by
  induction l generalizing i with
  | nil => simp at h
  | cons a t ih =>
    cases i with
    | zero => rfl
    | succ j => simpa [getq, List.getD] using ih j (by simpa using h)

theorem getq_set_ne (l : List ℚ) (i j : ℕ) (v : ℚ) (h : i ≠ j) :
    getq (l.set i v) j = getq l j := by
  induction l generalizing i j with
  | nil => rfl
  | cons a t ih =>
    cases i with
    | zero => cases j with
      | zero => exact absurd rfl h
      | succ k => rfl
    | succ m => cases j with
      | zero => rfl
      | succ k => simpa [getq, List.getD] using ih m k (by omega)

theorem dictSet_self (d : PairDict) (k : ℕ × ℕ) (v : ℚ) : dictSet d k v k = some v := by
  simp [dictSet]

theorem dictSet_ne (d : PairDict) (k k2 : ℕ × ℕ) (v : ℚ) (h : k2 ≠ k) :
    dictSet d k v k2 = d k2 := by
  simp [dictSet, h]

theorem dictSet_isSome (d : PairDict) (k k2 : ℕ × ℕ) (v : ℚ) (h : (d k2).isSome) :
    (dictSet d k v k2).isSome := by
  by_cases hk : k2 = k
  · subst hk; simp [dictSet]
  · rwa [dictSet_ne d k k2 v hk]

theorem foldl_inv {α : Type} {β : Type} (Inv : α → Prop) (f : α → β → α) :
    ∀ (l : List β) (a : α), Inv a → (∀ acc x, x ∈ l → Inv acc → Inv (f acc x)) →
      Inv (l.foldl f a) := by
  intro l
  induction l with
  | nil => intro a ha _; simpa using ha
  | cons x t ih =>
    intro a ha hstep
    simp only [List.foldl_cons]
    exact ih (f a x) (hstep a x (by simp) ha)
      (fun acc y hy h2 => hstep acc y (by simp [hy]) h2)

/-! ## C1 — the covariance accumulation divides with Python floor division -/

/-- C1 claims `calculate_covariance` sums `pixel_map_i[k] * pixel_map_j[k] /
noise[k]` with `/` true division.  The source line uses `//` (floor
division): on pixel maps `[{0: 1.0}, {0: 1.0}]` with noise `[2.0]` the code
returns `1 * 1 // 2 = 0` while the claimed formula gives `1/2`.  This theorem
evaluates the embedded code and the spec formula at that input and shows they
differ (the intersection-of-keys part of the claim is confirmed by
`C1_intersection_of_keys` below; the division mode is the sole divergence). -/
theorem C1_floor_division_diverges :
    calculate_covariance ⟨[[(0, 1)], [(0, 1)]], [2], [[1], [0]], 0⟩ 0 1 = 0 ∧
    calculate_covariance_spec ⟨[[(0, 1)], [(0, 1)]], [2], [[1], [0]], 0⟩ 0 1 = 1 / 2 ∧
    calculate_covariance ⟨[[(0, 1)], [(0, 1)]], [2], [[1], [0]], 0⟩ 0 1 ≠
      calculate_covariance_spec ⟨[[(0, 1)], [(0, 1)]], [2], [[1], [0]], 0⟩ 0 1 :=
  ⟨by norm_num [calculate_covariance, plookup, List.filterMap, fdiv],
   by norm_num [calculate_covariance_spec, plookup, List.filterMap],
   by norm_num [calculate_covariance, calculate_covariance_spec, plookup,
     List.filterMap, fdiv]⟩

/-! ## C3 — regularization matrix for the 3×3 single-pair scenario -/

/-- Concrete evaluation of the spec-modelled regularization builder on the
3×3 single-pair scenario of claim C3 (and of the repository's own test
`test__one_B_matrix_size_3x3__makes_correct_regularization_matrix`): each of
the two directions of the edge `(0, 1)` contributes a full `weight² = 1` to
both diagonal and both off-diagonal entries, giving magnitude 2 everywhere. -/
theorem setup_regularization_3x3_single_pair :
    setup_regularization_matrix_via_pixel_pairs 3 [1, 1, 1] [1, 1, 0] [(0, 1)] =
      [[2, -2, 0], [-2, 2, 0], [0, 0, 0]] := by
  have h0 : List.replicate 3 (List.replicate 3 (0 : ℚ)) = [[0, 0, 0], [0, 0, 0], [0, 0, 0]] :=
    rfl
  have d1 : regularization_direction [[0, 0, 0], [0, 0, 0], [0, 0, 0]] 0 1 1 =
      [[1, -1, 0], [-1, 1, 0], [0, 0, 0]] := by
    norm_num [regularization_direction, set2, get2, getq]
  have d2 : regularization_direction [[1, -1, 0], [-1, 1, 0], [0, 0, 0]] 1 0 1 =
      [[2, -2, 0], [-2, 2, 0], [0, 0, 0]] := by
    norm_num [regularization_direction, set2, get2, getq]
  simp only [setup_regularization_matrix_via_pixel_pairs, List.foldl_cons, List.foldl_nil, h0]
  norm_num [d1, d2]

/-- C3 as stated: the pair-based builder on pairs `[(0, 1)]`, uniform
weights and `no_vertices = [1, 1, 0]` is claimed to produce
`[[1, -1, 0], [-1, 1, 0], [0, 0, 0]]`.  It does not: each of the two
directions of the edge contributes a full `weight²` to both diagonal and
both off-diagonal entries, so every magnitude is 2, not 1. -/
theorem C3_counterexample :
    setup_regularization_matrix_via_pixel_pairs 3 [1, 1, 1] [1, 1, 0] [(0, 1)] ≠
      [[1, -1, 0], [-1, 1, 0], [0, 0, 0]] := by
  rw [setup_regularization_3x3_single_pair]
  intro h
  have := congrArg (fun m => get2 m 0 0) h
  norm_num [get2, getq] at this

/-- C3 amended: on that scenario the builder produces
`[[2, -2, 0], [-2, 2, 0], [0, 0, 0]]` — which is exactly the matrix
`Bᵀ·B` of the difference matrix `[[-1, 1, 0], [1, -1, 0], [0, 0, 0]]` that
the repository's own test
(`test__one_B_matrix_size_3x3__makes_correct_regularization_matrix`)
checks the builder against. -/
theorem C3_pair_builder_on_3x3 :
    setup_regularization_matrix_via_pixel_pairs 3 [1, 1, 1] [1, 1, 0] [(0, 1)] =
      [[2, -2, 0], [-2, 2, 0], [0, 0, 0]] ∧
    setup_regularization_matrix_via_pixel_pairs 3 [1, 1, 1] [1, 1, 0] [(0, 1)] =
      mat_mul (mat_transpose [[-1, 1, 0], [1, -1, 0], [0, 0, 0]])
        [[-1, 1, 0], [1, -1, 0], [0, 0, 0]] := by
  have hm : mat_mul (mat_transpose [[-1, 1, 0], [1, -1, 0], [0, 0, 0]])
      [[-1, 1, 0], [1, -1, 0], [0, 0, 0]] = [[2, -2, 0], [-2, 2, 0], [0, 0, 0]] := by
    norm_num [mat_mul, mat_transpose, get2, getq, List.range_succ]
  exact ⟨setup_regularization_3x3_single_pair, by rw [setup_regularization_3x3_single_pair, hm]⟩

/-! ## C4 — the data-vector routines -/

theorem getq_of_length_le (l : List ℚ) (r : ℕ) (h : l.length ≤ r) : getq l r = 0 := by
  simp [getq, List.getD_eq_getElem?_getD, List.getElem?_eq_none h]

theorem length_fold_set (t : ℕ → ℚ) (m : ℕ) (dv : List ℚ) :
    ((List.range m).foldl (fun d p => d.set p (getq d p + t p)) dv).length = dv.length := by
  induction m generalizing dv with
  | zero => rfl
  | succ k ih =>
    rw [List.range_succ, List.foldl_append, List.foldl_cons, List.foldl_nil, List.length_set]
    exact ih dv

theorem getq_fold_set (t : ℕ → ℚ) (m : ℕ) (dv : List ℚ) (r : ℕ) :
    getq ((List.range m).foldl (fun d p => d.set p (getq d p + t p)) dv) r =
      getq dv r + if r < m ∧ r < dv.length then t r else 0 := by
  induction m with
  | zero => simp
  | succ k ih =>
    rw [List.range_succ, List.foldl_append, List.foldl_cons, List.foldl_nil]
    by_cases hr : r = k
    · subst hr
      by_cases hlen : r < dv.length
      · rw [getq_set_eq _ _ _ (by rw [length_fold_set]; exact hlen), ih]
        simp [hlen, Nat.lt_irrefl]
      · rw [getq_of_length_le _ _ (by rw [List.length_set, length_fold_set]; omega)]
        rw [getq_of_length_le dv r (by omega)]
        simp [hlen]
    · rw [getq_set_ne _ _ _ _ (by omega), ih]
      have hiff : (r < k + 1 ∧ r < dv.length) ↔ (r < k ∧ r < dv.length) := by omega
      rw [if_congr hiff rfl rfl]

theorem foldl_add_eq_sum (f : ℕ × ℚ → ℚ) :
    ∀ (l : List (ℕ × ℚ)) (a : ℚ), l.foldl (fun v p => v + f p) a = a + (l.map f).sum := by
  intro l
  induction l with
  | nil => intro a; simp
  | cons x t ih => intro a; rw [List.foldl_cons, List.map_cons, List.sum_cons, ih]; ring

/-- C4 as stated fails on `create_d_matrix`: on the pixel maps `[{0: 1.0}]`,
noise `[2.0]` and image `[3.0]`, the routine computes the per-term floor
division `3 * 1 // 2 = 1` against an unsquared noise value, while the claimed
formula `Σ_o image[o]·mapping[o,r]/noise[o]²` gives `3/4`. -/
theorem C4_counterexample :
    getq (create_d_matrix [[(0, 1)]] [2] [3]) 0 = 1 ∧
    (∑ o ∈ Finset.range 1, [(3 : ℚ)].getD o 0 * pmval [(0, 1)] o / ([(2 : ℚ)].getD o 0) ^ 2) =
      3 / 4 ∧
    (1 : ℚ) ≠ 3 / 4 :=
  ⟨by norm_num [create_d_matrix, getq, fdiv],
   by norm_num [pmval, plookup],
   by norm_num⟩

/-- C4 amended: the dense routine
`data_vector_from_blurred_mapping_matrix_and_data` does satisfy the claimed
formula — every entry `r` equals `Σ_o image[o]·mapping[o,r]/noise[o]²` —
while `create_d_matrix` instead returns, for each pixel map, the sum of the
per-key floor divisions `image[k]·pixel_map[k] // noise[k]` (floor division,
noise not squared). -/
theorem C4_data_vector_characterization :
    (∀ (blurred_mapping_matrix : Matq) (image noise_map : List ℚ) (r : ℕ),
      r < (blurred_mapping_matrix.getD 0 []).length →
      getq (data_vector_from_blurred_mapping_matrix_and_data blurred_mapping_matrix image
        noise_map) r =
        ∑ o ∈ Finset.range blurred_mapping_matrix.length,
          image.getD o 0 * get2 blurred_mapping_matrix o r / (noise_map.getD o 0) ^ 2) ∧
    (∀ (pixel_maps : List PixelMap) (noise_vector image_vector : List ℚ),
      create_d_matrix pixel_maps noise_vector image_vector =
        pixel_maps.map (fun m =>
          (m.map (fun p =>
            fdiv (image_vector.getD p.1 0 * p.2) (noise_vector.getD p.1 0))).sum)) := by
  constructor
  · intro B image noise_map r hr
    unfold data_vector_from_blurred_mapping_matrix_and_data
    have key : ∀ (k : ℕ) (dv : List ℚ), dv.length = (B.getD 0 []).length →
        getq ((List.range k).foldl
          (fun dv2 image_index =>
            (List.range ((B.getD 0 []).length)).foldl
              (fun d p => d.set p (getq d p +
                image.getD image_index 0 * get2 B image_index p /
                  (noise_map.getD image_index 0) ^ 2))
              dv2)
          dv) r =
          getq dv r + ∑ o ∈ Finset.range k,
            image.getD o 0 * get2 B o r / (noise_map.getD o 0) ^ 2 := by
      intro k
      induction k with
      | zero => intro dv _; simp
      | succ j ih =>
        intro dv hlen
        rw [List.range_succ, List.foldl_append, List.foldl_cons, List.foldl_nil]
        rw [getq_fold_set (fun p =>
          image.getD j 0 * get2 B j p / (noise_map.getD j 0) ^ 2)]
        rw [ih dv hlen]
        have hl2 : ((List.range j).foldl
            (fun dv2 image_index =>
              (List.range ((B.getD 0 []).length)).foldl
                (fun d p => d.set p (getq d p +
                  image.getD image_index 0 * get2 B image_index p /
                    (noise_map.getD image_index 0) ^ 2))
                dv2)
            dv).length = (B.getD 0 []).length := by
          clear ih
          induction j generalizing dv with
          | zero => simpa using hlen
          | succ i ih2 =>
            rw [List.range_succ, List.foldl_append, List.foldl_cons, List.foldl_nil]
            rw [length_fold_set]
            exact ih2 dv hlen
        rw [hl2]
        simp only [hr, and_self, if_true]
        rw [Finset.sum_range_succ]
        ring
    rw [key B.length (List.replicate ((B.getD 0 []).length) 0) (by simp)]
    rw [getq_replicate]
    ring
  · intro pixel_maps noise_vector image_vector
    unfold create_d_matrix
    apply List.map_congr_left
    intro m _
    rw [foldl_add_eq_sum (fun p =>
      fdiv (image_vector.getD p.1 0 * p.2) (noise_vector.getD p.1 0)) m 0]
    ring

/-- Witness for `C4_data_vector_characterization`: the dense-routine half
applied at `B = [[2], [3]]`, `image = [1, 1]`, `noise = [1, 1]`, entry 0. -/
theorem C4_witness :
    (0 < (([[2], [3]] : Matq).getD 0 []).length) ∧
    getq (data_vector_from_blurred_mapping_matrix_and_data [[2], [3]] [1, 1] [1, 1]) 0 =
      ∑ o ∈ Finset.range ([[2], [3]] : Matq).length,
        [(1 : ℚ), 1].getD o 0 * get2 [[2], [3]] o 0 / ([(1 : ℚ), 1].getD o 0) ^ 2 :=
  ⟨by decide,
   C4_data_vector_characterization.1 [[2], [3]] [1, 1] [1, 1] 0 (by decide)⟩


/-! ## C9 — the mapping matrix accumulates 1/S² per sub-sample -/

theorem getD_set_eq {α : Type} (l : List α) (i : ℕ) (v d : α) (h : i < l.length) :
    (l.set i v).getD i d = v := by
  induction l generalizing i with
  | nil => simp at h
  | cons a t ih =>
    cases i with
    | zero => rfl
    | succ j => simpa [List.getD] using ih j (by simpa using h)

theorem getD_set_ne {α : Type} (l : List α) (i j : ℕ) (v d : α) (h : i ≠ j) :
    (l.set i v).getD j d = l.getD j d := by
  induction l generalizing i j with
  | nil => rfl
  | cons a t ih =>
    cases i with
    | zero => cases j with
      | zero => exact absurd rfl h
      | succ k => rfl
    | succ m => cases j with
      | zero => rfl
      | succ k => simpa [List.getD] using ih m k (by omega)

theorem plookup_map_addval (k : ℕ) (v : ℚ) (k2 : ℕ) :
    ∀ (m : List (ℕ × ℚ)),
      plookup k2 (m.map (fun p => if p.1 = k then (p.1, p.2 + v) else p)) =
        if k2 = k then (plookup k2 m).map (fun w => w + v) else plookup k2 m := by
  intro m
  induction m with
  | nil => by_cases h : k2 = k <;> simp [plookup, h]
  | cons a t ih =>
    by_cases hak : a.1 = k
    · by_cases h2 : k2 = k
      · subst h2
        simp [plookup, hak, if_pos hak, ih]
      · have hne : ¬a.1 = k2 := fun hh => h2 (hh ▸ hak ▸ rfl)
        simp [plookup, if_pos hak, hne, ih, h2]
    · by_cases h2 : a.1 = k2
      · subst h2
        simp [plookup, if_neg hak, hak]
      · simp [plookup, if_neg hak, h2, ih]

theorem plookup_append (k2 : ℕ) (l2 : List (ℕ × ℚ)) :
    ∀ (l1 : List (ℕ × ℚ)),
      plookup k2 (l1 ++ l2) = (plookup k2 l1).or (plookup k2 l2) := by
  intro l1
  induction l1 with
  | nil => simp [plookup]
  | cons a t ih =>
    by_cases h : a.1 = k2
    · simp [plookup, h]
    · simp [plookup, h, ih]

theorem pmval_dict_increment (m : PixelMap) (k : ℕ) (v : ℚ) (k2 : ℕ) :
    pmval (dict_increment m k v) k2 = pmval m k2 + if k2 = k then v else 0 := by
  unfold dict_increment
  by_cases hmem : (plookup k m).isSome
  · rw [if_pos hmem]
    unfold pmval
    rw [plookup_map_addval]
    by_cases hk2 : k2 = k
    · subst hk2
      obtain ⟨w, hw⟩ := Option.isSome_iff_exists.mp hmem
      simp [hw]
    · simp [hk2]
  · rw [if_neg hmem]
    unfold pmval
    rw [plookup_append]
    by_cases hk2 : k2 = k
    · subst hk2
      have hnone : plookup k2 m = none := Option.not_isSome_iff_eq_none.mp hmem
      simp [hnone, plookup]
    · simp [plookup, hk2, Ne.symm hk2]

/-- The sub-pixel accumulation loop of `create_mapping_matrix`, characterized:
after `k` iterations, row `r2` holds `count · frac` at key `o2`, where `count`
is the number of processed sub-samples assigned to `(r2, o2)`. -/
theorem mapping_fold_spec (spt : ℕ) (s2s s2i : List ℕ) (frac : ℚ)
    (total : ℕ) (hrange : ∀ i < total, s2s.getD i 0 < spt) :
    ∀ k, k ≤ total →
      ((List.range k).foldl
          (fun f i =>
            f.set (s2s.getD i 0)
              (dict_increment (f.getD (s2s.getD i 0) []) (s2i.getD i 0) frac))
          (List.replicate spt [])).length = spt ∧
      ∀ r2 o2, r2 < spt →
        pmval (((List.range k).foldl
            (fun f i =>
              f.set (s2s.getD i 0)
                (dict_increment (f.getD (s2s.getD i 0) []) (s2i.getD i 0) frac))
            (List.replicate spt [])).getD r2 []) o2 =
          (((List.range k).countP
              (fun i => s2s.getD i 0 == r2 && s2i.getD i 0 == o2) : ℕ) : ℚ) * frac := by
  intro k
  induction k with
  | zero =>
    intro _
    refine ⟨by simp, ?_⟩
    intro r2 o2 _
    simp [pmval, plookup]
  | succ j ih =>
    intro hj
    obtain ⟨ihlen, ihval⟩ := ih (by omega)
    have hj2 : j < total := by omega
    constructor
    · rw [List.range_succ, List.foldl_append, List.foldl_cons, List.foldl_nil,
        List.length_set]
      exact ihlen
    · intro r2 o2 hr2
      rw [List.range_succ, List.foldl_append, List.foldl_cons, List.foldl_nil,
        List.countP_append]
      have hsingle : ([j].countP (fun i => s2s.getD i 0 == r2 && s2i.getD i 0 == o2)) =
          if s2s.getD j 0 = r2 ∧ s2i.getD j 0 = o2 then 1 else 0 := by
        simp only [List.countP_cons, List.countP_nil, Nat.zero_add, Bool.and_eq_true,
          beq_iff_eq]
      rw [hsingle]
      by_cases hrr : s2s.getD j 0 = r2
      · rw [hrr, getD_set_eq _ _ _ _ (by rw [ihlen]; exact hr2)]
        rw [pmval_dict_increment, ihval r2 o2 hr2]
        by_cases hoo : o2 = s2i.getD j 0
        · rw [if_pos hoo, if_pos ⟨rfl, hoo.symm⟩]
          push_cast
          ring
        · rw [if_neg hoo, if_neg (by intro hc; exact hoo hc.2.symm)]
          push_cast
          ring
      · rw [getD_set_ne _ _ _ _ _ hrr, ihval r2 o2 hr2,
          if_neg (by intro hc; exact hrr hc.1)]
        push_cast
        ring

/-- C9: every entry `(r, o)` of the mapping matrix produced by
`create_mapping_matrix` equals `1/S²` times the number of sub-sample indices
`k` with `sub_to_source[k] = r` and `sub_to_image[k] = o`. -/
theorem C9_mapping_matrix_fractions (source_pixel_total image_pixel_total sub_grid_size : ℕ)
    (sub_to_source sub_to_image : List ℕ) (r o : ℕ)
    (hr : r < source_pixel_total)
    (hrange : ∀ i < image_pixel_total * sub_grid_size ^ 2,
      sub_to_source.getD i 0 < source_pixel_total)
    (hlen1 : sub_to_source.length = image_pixel_total * sub_grid_size ^ 2)
    (hlen2 : sub_to_image.length = image_pixel_total * sub_grid_size ^ 2) :
    pmval ((create_mapping_matrix source_pixel_total image_pixel_total sub_grid_size
        sub_to_source sub_to_image).getD r []) o =
      (((List.range (image_pixel_total * sub_grid_size ^ 2)).countP
          (fun i => sub_to_source.getD i 0 == r && sub_to_image.getD i 0 == o) : ℕ) : ℚ) *
        (1 / (sub_grid_size : ℚ)) ^ 2 :=
  (mapping_fold_spec source_pixel_total sub_to_source sub_to_image
      ((1 / (sub_grid_size : ℚ)) ^ 2) (image_pixel_total * sub_grid_size ^ 2) hrange
      (image_pixel_total * sub_grid_size ^ 2) le_rfl).2 r o hr

/-- Witness for `C9_mapping_matrix_fractions`: the spec scenario — sub-grid
size 2, all 4 sub-samples of observation pixel 0 assigned to reconstruction
pixel 2 — yields mapping entry `(2, 0) = 4 · (1/4) = 1.0`. -/
theorem C9_witness :
    (2 < 3) ∧
    pmval ((create_mapping_matrix 3 1 2 [2, 2, 2, 2] [0, 0, 0, 0]).getD 2 []) 0 = 1 := by
  refine ⟨by decide, ?_⟩
  rw [C9_mapping_matrix_fractions 3 1 2 [2, 2, 2, 2] [0, 0, 0, 0] 2 0 (by decide)
    (by decide) (by decide) (by decide)]
  norm_num [List.countP, List.countP.go, List.range_succ]

/-! ## C2 — which exception the inversion raises, and where -/

set_option maxHeartbeats 1600000 in
theorem curvature_1x1_zero :
    curvature_matrix_from_blurred_mapping_matrix [[0]] [1] = [[0]] := by
  norm_num [curvature_matrix_from_blurred_mapping_matrix, get2, set2, getq,
    List.range_succ]

theorem data_vector_1x1_zero :
    data_vector_from_blurred_mapping_matrix_and_data [[0]] [1] [1] = [0] := by
  norm_num [data_vector_from_blurred_mapping_matrix_and_data, get2, getq, List.range_succ]

theorem detq_1x1_zero : detq [[(0 : ℚ)]] = 0 := by
  rw [detq]
  norm_num [List.range_succ]

theorem cholesky_1x1_zero : cholesky_pivots [[(0 : ℚ)]] = none := by
  rw [cholesky_pivots]
  norm_num

/-- The concrete rank-deficient instance: blurred mapping matrix `[[0]]`
(one observation pixel mapping nowhere), image `[1]`, noise `[1]`, zero
regularization matrix `[[0]]`.  `F = [[0]]`, `F + H = [[0]]` is singular, and
the construction raises `numpy.linalg.LinAlgError` from `np.linalg.solve`. -/
theorem inversion_1x1_singular :
    inversion_from_mapper_regularization_and_data [[0]] [1] [1] [[0]] =
      Except.error PyError.linAlgError := by
  have hm : mat_add (curvature_matrix_from_blurred_mapping_matrix [[0]] [1]) [[0]] =
      [[(0 : ℚ)]] := by
    rw [curvature_1x1_zero]
    norm_num [mat_add]
  simp only [inversion_from_mapper_regularization_and_data, hm, data_vector_1x1_zero,
    np_linalg_solve, detq_1x1_zero, if_pos]

/-- C2 as stated is false: on the claim's own highlighted scenario — a zero
regularization matrix `H` together with a rank-deficient curvature matrix `F`
(so `F + H` is not positive-definite, as the failing Cholesky shows) — the
inversion construction raises `numpy.linalg.LinAlgError` from
`np.linalg.solve`, not `InversionError`/`InversionException`. -/
theorem C2_counterexample :
    cholesky_pivots (mat_add (curvature_matrix_from_blurred_mapping_matrix [[0]] [1]) [[0]]) =
      none ∧
    inversion_from_mapper_regularization_and_data [[0]] [1] [1] [[0]] =
      Except.error PyError.linAlgError ∧
    PyError.linAlgError ≠ PyError.inversionException := by
  refine ⟨?_, inversion_1x1_singular, by decide⟩
  have hm : mat_add (curvature_matrix_from_blurred_mapping_matrix [[0]] [1]) [[0]] =
      [[(0 : ℚ)]] := by
    rw [curvature_1x1_zero]
    norm_num [mat_add]
  rw [hm, cholesky_1x1_zero]

/-- C2 amended: `InversionException` is raised exactly when Cholesky
decomposition fails inside the log-determinant computation, and is propagated
to the caller through the lazily evaluated `log_det_curvature_reg_matrix_term`
property; the construction path `inversion_from_mapper_regularization_and_data`
instead raises `numpy`'s `LinAlgError` whenever the assembled `F + H` is
singular (in particular for a zero `H` with rank-deficient `F`), and never
`InversionException`. -/
theorem C2_exception_paths :
    (∀ matrix : Matq, cholesky_pivots matrix = none →
      log_determinant_of_matrix_cholesky matrix = Except.error PyError.inversionException) ∧
    (∀ (matrix : Matq) (ds : List ℚ), cholesky_pivots matrix = some ds →
      log_determinant_of_matrix_cholesky matrix = Except.ok ds) ∧
    (∀ inv : Inversion, cholesky_pivots inv.curvature_reg_matrix = none →
      log_det_curvature_reg_matrix_term inv = Except.error PyError.inversionException) ∧
    (∀ (blurred_mapping_matrix : Matq) (image noise_map : List ℚ)
      (regularization_matrix : Matq),
      detq (mat_add (curvature_matrix_from_blurred_mapping_matrix blurred_mapping_matrix
        noise_map) regularization_matrix) = 0 →
      inversion_from_mapper_regularization_and_data blurred_mapping_matrix image noise_map
        regularization_matrix = Except.error PyError.linAlgError) := by
  refine ⟨?_, ?_, ?_, ?_⟩
  · intro matrix h
    unfold log_determinant_of_matrix_cholesky
    rw [h]
  · intro matrix ds h
    unfold log_determinant_of_matrix_cholesky
    rw [h]
  · intro inv h
    unfold log_det_curvature_reg_matrix_term log_determinant_of_matrix_cholesky
    rw [h]
  · intro B image noise_map H h
    simp only [inversion_from_mapper_regularization_and_data, np_linalg_solve, if_pos h]

/-- Witness for `C2_exception_paths`, discharging its hypotheses on the
concrete singular instance. -/
theorem C2_witness :
    cholesky_pivots [[(0 : ℚ)]] = none ∧
    log_determinant_of_matrix_cholesky [[(0 : ℚ)]] =
      Except.error PyError.inversionException ∧
    inversion_from_mapper_regularization_and_data [[0]] [1] [1] [[0]] =
      Except.error PyError.linAlgError := by
  have h4 : detq (mat_add (curvature_matrix_from_blurred_mapping_matrix [[0]] [1]) [[0]]) =
      0 := by
    have hm : mat_add (curvature_matrix_from_blurred_mapping_matrix [[0]] [1]) [[0]] =
        [[(0 : ℚ)]] := by
      rw [curvature_1x1_zero]
      norm_num [mat_add]
    rw [hm, detq_1x1_zero]
  exact ⟨cholesky_1x1_zero, C2_exception_paths.1 [[(0 : ℚ)]] cholesky_1x1_zero,
    C2_exception_paths.2.2.2 [[0]] [1] [1] [[0]] h4⟩

/-! ## Symmetry of the covariance computation -/

theorem plookup_isSome_iff (i : ℕ) :
    ∀ (m : List (ℕ × ℚ)), (plookup i m).isSome ↔ i ∈ m.map Prod.fst := by
  intro m
  induction m with
  | nil => simp [plookup]
  | cons a t ih =>
    by_cases h : a.1 = i
    · simp [plookup, h]
    · simp [plookup, h, ih, Ne.symm h]

theorem pmval_cons_ne (a : ℕ × ℚ) (t : List (ℕ × ℚ)) (i : ℕ) (h : a.1 ≠ i) :
    pmval (a :: t) i = pmval t i := by
  simp [pmval, plookup, h]

theorem pmval_cons_self (a : ℕ × ℚ) (t : List (ℕ × ℚ)) :
    pmval (a :: t) a.1 = a.2 := by
  simp [pmval, plookup]

/-- A filterMap-sum over the entries of `m1` whose keys also appear in `m2`
is a `Finset` sum over the intersection of the key sets, provided `m1` has
no duplicate keys. -/
theorem filterMap_sum_inter (m2 : List (ℕ × ℚ)) (F : ℕ → ℚ → ℚ → ℚ) :
    ∀ (m1 : List (ℕ × ℚ)), (m1.map Prod.fst).Nodup →
      (m1.filterMap (fun p => (plookup p.1 m2).map (fun w => F p.1 p.2 w))).sum =
        ∑ i ∈ (m1.map Prod.fst).toFinset ∩ (m2.map Prod.fst).toFinset,
          F i (pmval m1 i) (pmval m2 i) := by
  intro m1
  induction m1 with
  | nil => simp
  | cons a t ih =>
    intro hnd
    have hnd2 : (a.1 :: t.map Prod.fst).Nodup := by simpa using hnd
    have ha : a.1 ∉ t.map Prod.fst := (List.nodup_cons.mp hnd2).1
    have ht : (t.map Prod.fst).Nodup := (List.nodup_cons.mp hnd2).2
    rw [List.filterMap_cons]
    cases hlk : plookup a.1 m2 with
    | none =>
      have hnotin : a.1 ∉ (m2.map Prod.fst).toFinset := by
        rw [List.mem_toFinset]
        intro hmem
        rw [← plookup_isSome_iff] at hmem
        rw [hlk] at hmem
        simp at hmem
      simp only [Option.map_none', List.map_cons, List.toFinset_cons]
      rw [Finset.insert_inter_of_not_mem hnotin, ih ht]
      apply Finset.sum_congr rfl
      intro i hi
      have hit : i ∈ t.map Prod.fst := by
        have := (Finset.mem_inter.mp hi).1
        simpa [List.mem_toFinset] using this
      have : a.1 ≠ i := fun hh => ha (hh ▸ hit)
      rw [pmval_cons_ne a t i this]
    | some w =>
      have hin : a.1 ∈ (m2.map Prod.fst).toFinset := by
        rw [List.mem_toFinset, ← plookup_isSome_iff, hlk]
        rfl
      simp only [Option.map_some', List.map_cons, List.toFinset_cons, List.sum_cons]
      rw [Finset.insert_inter_of_mem hin]
      have hnotint : a.1 ∉ (t.map Prod.fst).toFinset ∩ (m2.map Prod.fst).toFinset := by
        intro hmem
        exact ha (by simpa [List.mem_toFinset] using (Finset.mem_inter.mp hmem).1)
      rw [Finset.sum_insert hnotint, ih ht]
      have h1 : pmval (a :: t) a.1 = a.2 := pmval_cons_self a t
      have h2 : pmval m2 a.1 = w := by simp [pmval, hlk]
      rw [h1, h2]
      congr 1
      apply Finset.sum_congr rfl
      intro i hi
      have hit : i ∈ t.map Prod.fst := by
        have := (Finset.mem_inter.mp hi).1
        simpa [List.mem_toFinset] using this
      have : a.1 ≠ i := fun hh => ha (hh ▸ hit)
      rw [pmval_cons_ne a t i this]

theorem pixel_map_getD_nodup (P : CovarianceMatrixGenerator)
    (hnd : ∀ m ∈ P.pixel_maps, (m.map Prod.fst).Nodup) (a : ℕ) :
    ((P.pixel_maps.getD a []).map Prod.fst).Nodup := by
  rcases Nat.lt_or_ge a P.pixel_maps.length with h | h
  · have hmem : P.pixel_maps.getD a [] ∈ P.pixel_maps := by
      rw [List.getD_eq_getElem?_getD, List.getElem?_eq_getElem h]
      exact List.getElem_mem h
    exact hnd _ hmem
  · rw [List.getD_eq_getElem?_getD, List.getElem?_eq_none (by omega)]
    simp

/-- `calculate_covariance` is symmetric in its two pixel indices: the sum
runs over the intersection of the two key sets either way, and the pairwise
product commutes (exactly — the model is over `ℚ`, where reordering the
summation is exact). -/
theorem calculate_covariance_comm (P : CovarianceMatrixGenerator)
    (hnd : ∀ m ∈ P.pixel_maps, (m.map Prod.fst).Nodup) (a b : ℕ) :
    calculate_covariance P a b = calculate_covariance P b a := by
  simp only [calculate_covariance]
  rw [filterMap_sum_inter (P.pixel_maps.getD b [])
    (fun i x w => fdiv (x * w) (P.noise_vector.getD i 0)) _ (pixel_map_getD_nodup P hnd a)]
  rw [filterMap_sum_inter (P.pixel_maps.getD a [])
    (fun i x w => fdiv (x * w) (P.noise_vector.getD i 0)) _ (pixel_map_getD_nodup P hnd b)]
  rw [Finset.inter_comm]
  apply Finset.sum_congr rfl
  intro i _
  rw [mul_comm]

/-! ## The memoization cache invariant -/

theorem pairdict_ok_dictSet (P : CovarianceMatrixGenerator) (d : PairDict)
    (hok : pairdict_ok P d) (x y : ℕ) (v : ℚ) (hv : v = calculate_covariance P x y) :
    pairdict_ok P (dictSet d (x, y) v) := by
  intro a b u hu
  by_cases hxy : ((a, b) : ℕ × ℕ) = (x, y)
  · obtain ⟨hax, hby⟩ := Prod.mk.inj hxy
    subst hax
    subst hby
    rw [dictSet_self] at hu
    rw [← Option.some.inj hu]
    exact hv
  · rw [dictSet_ne _ _ _ _ hxy] at hu
    exact hok a b u hu

theorem add_covariance_snd_non_zero (P : CovarianceMatrixGenerator) (g : GenState)
    (a b : ℕ) :
    (add_covariance_for_indices P g a b).2.non_zero_covariances =
      g.non_zero_covariances := by
  unfold add_covariance_for_indices
  cases h : g.calculated_covariances (a, b) <;> simp

theorem add_covariance_snd_lists (P : CovarianceMatrixGenerator) (g : GenState) (a b : ℕ) :
    (add_covariance_for_indices P g a b).2.neighbour_lists = g.neighbour_lists := by
  unfold add_covariance_for_indices
  cases h : g.calculated_covariances (a, b) <;> simp

/-- Under the cache invariant (and unique pixel-map keys for symmetry), a
call to `add_covariance_for_indices` returns exactly
`calculate_covariance a b` — whether it was computed afresh, read from the
`(a, b)` cache entry, or mirrored from the `(b, a)` entry — and preserves the
invariant. -/
theorem add_covariance_spec (P : CovarianceMatrixGenerator)
    (hnd : ∀ m ∈ P.pixel_maps, (m.map Prod.fst).Nodup) (g : GenState) (a b : ℕ)
    (hc : pairdict_ok P g.calculated_covariances) :
    (add_covariance_for_indices P g a b).1 = calculate_covariance P a b ∧
    pairdict_ok P (add_covariance_for_indices P g a b).2.calculated_covariances := by
  unfold add_covariance_for_indices
  cases h1 : g.calculated_covariances (a, b) with
  | some v =>
    exact ⟨hc a b v h1, hc⟩
  | none =>
    cases h2 : g.calculated_covariances (b, a) with
    | some w =>
      have hw : w = calculate_covariance P b a := hc b a w h2
      have hv : w = calculate_covariance P a b := by
        rw [hw, calculate_covariance_comm P hnd b a]
      exact ⟨hv, pairdict_ok_dictSet P _ hc a b w hv⟩
    | none =>
      exact ⟨rfl, pairdict_ok_dictSet P _ hc a b _ rfl⟩

/-! ## Invariants of the contiguous-search loop -/

theorem contiguous_loop_ok (P : CovarianceMatrixGenerator)
    (hnd : ∀ m ∈ P.pixel_maps, (m.map Prod.fst).Nodup) (s : ℕ) :
    ∀ (fuel : ℕ) (g : GenState) (b : BreadthFirstSearch),
      pairdict_ok P g.calculated_covariances →
      pairdict_ok P g.non_zero_covariances →
      pairdict_ok P (find_contiguous_covariances_loop P s fuel g b).1.calculated_covariances ∧
      pairdict_ok P (find_contiguous_covariances_loop P s fuel g b).1.non_zero_covariances := by
  intro fuel
  induction fuel with
  | zero =>
    intro g b h1 h2
    simp only [find_contiguous_covariances_loop]
    exact ⟨h1, h2⟩
  | succ n ih =>
    intro g b h1 h2
    obtain ⟨vis, q⟩ := b
    cases q with
    | nil =>
      simp only [find_contiguous_covariances_loop]
      exact ⟨h1, h2⟩
    | cons c rest =>
      simp only [find_contiguous_covariances_loop]
      obtain ⟨hval, hcache⟩ := add_covariance_spec P hnd g s c h1
      by_cases hlt :
          P.neighbour_search_limit < (add_covariance_for_indices P g s c).1
      · rw [if_pos hlt]
        apply ih
        · exact hcache
        · apply pairdict_ok_dictSet
          · rw [add_covariance_snd_non_zero]
            exact h2
          · exact hval
      · rw [if_neg hlt]
        apply ih
        · exact hcache
        · rw [add_covariance_snd_non_zero]
          exact h2

theorem contiguous_loop_mono (P : CovarianceMatrixGenerator) (s : ℕ) :
    ∀ (fuel : ℕ) (g : GenState) (b : BreadthFirstSearch) (k : ℕ × ℕ),
      (g.non_zero_covariances k).isSome →
      ((find_contiguous_covariances_loop P s fuel g b).1.non_zero_covariances k).isSome := by
  intro fuel
  induction fuel with
  | zero =>
    intro g b k h
    simpa only [find_contiguous_covariances_loop] using h
  | succ n ih =>
    intro g b k h
    obtain ⟨vis, q⟩ := b
    cases q with
    | nil =>
      simpa only [find_contiguous_covariances_loop] using h
    | cons c rest =>
      simp only [find_contiguous_covariances_loop]
      by_cases hlt :
          P.neighbour_search_limit < (add_covariance_for_indices P g s c).1
      · rw [if_pos hlt]
        apply ih
        apply dictSet_isSome
        rw [add_covariance_snd_non_zero]
        exact h
      · rw [if_neg hlt]
        apply ih
        rw [add_covariance_snd_non_zero]
        exact h

theorem find_contiguous_ok (P : CovarianceMatrixGenerator)
    (hnd : ∀ m ∈ P.pixel_maps, (m.map Prod.fst).Nodup) (s : ℕ) (g : GenState)
    (h1 : pairdict_ok P g.calculated_covariances)
    (h2 : pairdict_ok P g.non_zero_covariances) :
    pairdict_ok P (find_contiguous_covariances P s g).calculated_covariances ∧
    pairdict_ok P (find_contiguous_covariances P s g).non_zero_covariances := by
  unfold find_contiguous_covariances
  obtain ⟨hval, hcache⟩ := add_covariance_spec P hnd g s s h1
  apply contiguous_loop_ok P hnd s
  · exact hcache
  · apply pairdict_ok_dictSet
    · rw [add_covariance_snd_non_zero]
      exact h2
    · exact hval

theorem find_contiguous_mono (P : CovarianceMatrixGenerator) (s : ℕ) (g : GenState)
    (k : ℕ × ℕ) (h : (g.non_zero_covariances k).isSome) :
    ((find_contiguous_covariances P s g).non_zero_covariances k).isSome := by
  unfold find_contiguous_covariances
  apply contiguous_loop_mono
  apply dictSet_isSome
  rw [add_covariance_snd_non_zero]
  exact h

theorem find_contiguous_diag (P : CovarianceMatrixGenerator) (s : ℕ) (g : GenState) :
    ((find_contiguous_covariances P s g).non_zero_covariances (s, s)).isSome := by
  unfold find_contiguous_covariances
  apply contiguous_loop_mono
  simp [dictSet_self]

/-! ## Invariants of the passes -/

theorem find_all_contiguous_ok (P : CovarianceMatrixGenerator)
    (hnd : ∀ m ∈ P.pixel_maps, (m.map Prod.fst).Nodup) (g : GenState)
    (h1 : pairdict_ok P g.calculated_covariances)
    (h2 : pairdict_ok P g.non_zero_covariances) :
    pairdict_ok P (find_all_contiguous_covariances P g).calculated_covariances ∧
    pairdict_ok P (find_all_contiguous_covariances P g).non_zero_covariances := by
  unfold find_all_contiguous_covariances
  apply foldl_inv
    (fun (g2 : GenState) => pairdict_ok P g2.calculated_covariances ∧
      pairdict_ok P g2.non_zero_covariances)
  · exact ⟨h1, h2⟩
  · intro acc x _ hacc
    exact find_contiguous_ok P hnd x acc hacc.1 hacc.2

theorem find_all_contiguous_diag (P : CovarianceMatrixGenerator) (g : GenState) (s : ℕ)
    (hs : s < P.pixel_maps.length) :
    ((find_all_contiguous_covariances P g).non_zero_covariances (s, s)).isSome := by
  unfold find_all_contiguous_covariances
  have hmem : s ∈ List.range P.pixel_maps.length := List.mem_range.mpr hs
  obtain ⟨l1, l2, hsplit⟩ := List.append_of_mem hmem
  rw [hsplit, List.foldl_append, List.foldl_cons]
  apply foldl_inv (fun (g2 : GenState) => ((g2.non_zero_covariances (s, s)).isSome : Prop))
  · exact find_contiguous_diag P s _
  · intro acc x _ hacc
    exact find_contiguous_mono P x acc (s, s) hacc

theorem non_contiguous_step_ok (P : CovarianceMatrixGenerator)
    (hnd : ∀ m ∈ P.pixel_maps, (m.map Prod.fst).Nodup) (x y : ℕ) (g : GenState)
    (h1 : pairdict_ok P g.calculated_covariances)
    (h2 : pairdict_ok P g.non_zero_covariances) :
    pairdict_ok P (non_contiguous_step P x y g).calculated_covariances ∧
    pairdict_ok P (non_contiguous_step P x y g).non_zero_covariances := by
  unfold non_contiguous_step
  by_cases hxy : x ≠ y
  · rw [if_pos hxy]
    obtain ⟨hval, hcache⟩ := add_covariance_spec P hnd g x y h1
    by_cases hpos : 0 < (add_covariance_for_indices P g x y).1
    · rw [if_pos hpos]
      refine ⟨hcache, ?_⟩
      apply pairdict_ok_dictSet
      · rw [add_covariance_snd_non_zero]
        exact h2
      · exact hval
    · rw [if_neg hpos]
      exact ⟨hcache, by rw [add_covariance_snd_non_zero]; exact h2⟩
  · rw [if_neg hxy]
    exact ⟨h1, h2⟩

theorem non_contiguous_step_mono (P : CovarianceMatrixGenerator) (x y : ℕ) (g : GenState)
    (k : ℕ × ℕ) (h : (g.non_zero_covariances k).isSome) :
    ((non_contiguous_step P x y g).non_zero_covariances k).isSome := by
  unfold non_contiguous_step
  by_cases hxy : x ≠ y
  · rw [if_pos hxy]
    by_cases hpos : 0 < (add_covariance_for_indices P g x y).1
    · rw [if_pos hpos]
      apply dictSet_isSome
      rw [add_covariance_snd_non_zero]
      exact h
    · rw [if_neg hpos]
      rw [add_covariance_snd_non_zero]
      exact h
  · rw [if_neg hxy]
    exact h

theorem find_all_non_contiguous_ok (P : CovarianceMatrixGenerator)
    (hnd : ∀ m ∈ P.pixel_maps, (m.map Prod.fst).Nodup) (g : GenState)
    (h1 : pairdict_ok P g.calculated_covariances)
    (h2 : pairdict_ok P g.non_zero_covariances) :
    pairdict_ok P (find_all_non_contiguous_covariances P g).calculated_covariances ∧
    pairdict_ok P (find_all_non_contiguous_covariances P g).non_zero_covariances := by
  unfold find_all_non_contiguous_covariances
  apply foldl_inv
    (fun (g2 : GenState) => pairdict_ok P g2.calculated_covariances ∧
      pairdict_ok P g2.non_zero_covariances)
  · exact ⟨h1, h2⟩
  · intro acc l _ hacc
    apply foldl_inv
      (fun (g2 : GenState) => pairdict_ok P g2.calculated_covariances ∧
        pairdict_ok P g2.non_zero_covariances)
    · exact hacc
    · intro acc2 x _ hacc2
      apply foldl_inv
        (fun (g2 : GenState) => pairdict_ok P g2.calculated_covariances ∧
          pairdict_ok P g2.non_zero_covariances)
      · exact hacc2
      · intro acc3 y _ hacc3
        exact non_contiguous_step_ok P hnd x y acc3 hacc3.1 hacc3.2

theorem find_all_non_contiguous_mono (P : CovarianceMatrixGenerator) (g : GenState)
    (k : ℕ × ℕ) (h : (g.non_zero_covariances k).isSome) :
    ((find_all_non_contiguous_covariances P g).non_zero_covariances k).isSome := by
  unfold find_all_non_contiguous_covariances
  apply foldl_inv (fun (g2 : GenState) => ((g2.non_zero_covariances k).isSome : Prop))
  · exact h
  · intro acc l _ hacc
    apply foldl_inv (fun (g2 : GenState) => ((g2.non_zero_covariances k).isSome : Prop))
    · exact hacc
    · intro acc2 x _ hacc2
      apply foldl_inv (fun (g2 : GenState) => ((g2.non_zero_covariances k).isSome : Prop))
      · exact hacc2
      · intro acc3 y _ hacc3
        exact non_contiguous_step_mono P x y acc3 k hacc3

/-! ## C5 — the diagonal key is always present -/

/-- C5: for every generator input and every in-range seed pixel `s`, the map
returned by `create_covariance_matrix` contains the diagonal key `(s, s)`:
`find_contiguous_covariances` records it unconditionally before the
threshold-pruned traversal begins, and no later step ever removes a key.
The graph hypotheses state that the adjacency graph is a graph over the
reconstruction pixels (they make the embedding's total list-indexing agree
with Python's partial indexing). -/
theorem C5_diagonal_always_present (pixel_maps : List PixelMap) (noise_vector : List ℚ)
    (graph : List (List ℕ)) (neighbour_search_limit : ℚ) (s : ℕ)
    (hs : s < pixel_maps.length)
    (hglen : graph.length = pixel_maps.length)
    (hgr : ∀ l ∈ graph, ∀ n ∈ l, n < pixel_maps.length) :
    ((create_covariance_matrix pixel_maps noise_vector graph neighbour_search_limit)
      (s, s)).isSome := by
  unfold create_covariance_matrix
  apply find_all_non_contiguous_mono
  unfold contiguous_pass_state
  exact find_all_contiguous_diag _ _ s hs

/-- Witness for `C5_diagonal_always_present` at a concrete two-pixel input. -/
theorem C5_witness :
    (0 < ([[(0, 2)], [(0, 3)]] : List PixelMap).length) ∧
    ((create_covariance_matrix [[(0, 2)], [(0, 3)]] [1] [[1], [0]] 0) (0, 0)).isSome :=
  ⟨by decide,
   C5_diagonal_always_present [[(0, 2)], [(0, 3)]] [1] [[1], [0]] 0 0 (by decide)
     (by decide) (by decide)⟩

/-! ## C6 — exact symmetry of recorded pairs via the memoization cache -/

theorem initial_state_ok (P : CovarianceMatrixGenerator) :
    pairdict_ok P (initial_state P).calculated_covariances ∧
    pairdict_ok P (initial_state P).non_zero_covariances := by
  constructor <;> intro a b v h <;> simp [initial_state] at h

theorem create_covariance_matrix_values (pixel_maps : List PixelMap)
    (noise_vector : List ℚ) (graph : List (List ℕ)) (neighbour_search_limit : ℚ)
    (hnd : ∀ m ∈ pixel_maps, (m.map Prod.fst).Nodup) (i j : ℕ) (v : ℚ)
    (h : create_covariance_matrix pixel_maps noise_vector graph neighbour_search_limit
      (i, j) = some v) :
    v = calculate_covariance ⟨pixel_maps, noise_vector, graph, neighbour_search_limit⟩ i j := by
  revert h
  unfold create_covariance_matrix contiguous_pass_state
  intro h
  have h0 := initial_state_ok ⟨pixel_maps, noise_vector, graph, neighbour_search_limit⟩
  have hcont := find_all_contiguous_ok ⟨pixel_maps, noise_vector, graph,
    neighbour_search_limit⟩ hnd _ h0.1 h0.2
  have hfinal := find_all_non_contiguous_ok ⟨pixel_maps, noise_vector, graph,
    neighbour_search_limit⟩ hnd _ hcont.1 hcont.2
  exact hfinal.2 i j v h

/-- C6: (i) any two mirror entries `(i, j)` and `(j, i)` recorded in the map
returned by `create_covariance_matrix` hold exactly the same value (both are
`calculate_covariance i j`, which is exactly symmetric over `ℚ`; every value
that reaches the output dict passed through the memoization cache, whose
invariant is proved in `add_covariance_spec`); and (ii) the memoization
mechanism itself: when `(a, b)` is not cached but `(b, a)` is,
`add_covariance_for_indices` returns the cached `(b, a)` value instead of
recomputing.  The hypothesis is the Python-dict invariant that each pixel
map has unique keys. -/
theorem C6_recorded_pairs_symmetric (pixel_maps : List PixelMap) (noise_vector : List ℚ)
    (graph : List (List ℕ)) (neighbour_search_limit : ℚ)
    (hnd : ∀ m ∈ pixel_maps, (m.map Prod.fst).Nodup) :
    (∀ i j u v,
      create_covariance_matrix pixel_maps noise_vector graph neighbour_search_limit
        (i, j) = some u →
      create_covariance_matrix pixel_maps noise_vector graph neighbour_search_limit
        (j, i) = some v → u = v) ∧
    (∀ (g : GenState) (a b : ℕ) (v : ℚ),
      g.calculated_covariances (a, b) = none →
      g.calculated_covariances (b, a) = some v →
      (add_covariance_for_indices ⟨pixel_maps, noise_vector, graph,
        neighbour_search_limit⟩ g a b).1 = v) := by
  constructor
  · intro i j u v hu hv
    rw [create_covariance_matrix_values pixel_maps noise_vector graph
      neighbour_search_limit hnd i j u hu]
    rw [create_covariance_matrix_values pixel_maps noise_vector graph
      neighbour_search_limit hnd j i v hv]
    exact calculate_covariance_comm _ hnd i j
  · intro g a b v hab hba
    unfold add_covariance_for_indices
    rw [hab, hba]

/-- Witness for `C6_recorded_pairs_symmetric`: its memoization conjunct at a
concrete state whose cache holds `(1, 0) ↦ 5` and nothing else. -/
theorem C6_witness :
    ((⟨dictSet (fun _ => none) (1, 0) 5, fun _ => none, []⟩ :
        GenState).calculated_covariances (0, 1) = none) ∧
    ((⟨dictSet (fun _ => none) (1, 0) 5, fun _ => none, []⟩ :
        GenState).calculated_covariances (1, 0) = some 5) ∧
    (add_covariance_for_indices ⟨[[(0, 2)], [(0, 3)]], [1], [[1], [0]], 0⟩
      ⟨dictSet (fun _ => none) (1, 0) 5, fun _ => none, []⟩ 0 1).1 = 5 := by
  have h1 : ((⟨dictSet (fun _ => none) (1, 0) 5, fun _ => none, []⟩ :
      GenState).calculated_covariances (0, 1) = none) := by
    simp [dictSet]
  have h2 : ((⟨dictSet (fun _ => none) (1, 0) 5, fun _ => none, []⟩ :
      GenState).calculated_covariances (1, 0) = some 5) := by
    simp [dictSet]
  refine ⟨h1, h2, ?_⟩
  exact (C6_recorded_pairs_symmetric [[(0, 2)], [(0, 3)]] [1] [[1], [0]] 0
    (by intro m hm; fin_cases hm <;> decide)).2
    ⟨dictSet (fun _ => none) (1, 0) 5, fun _ => none, []⟩ 0 1 5 h1 h2

/-! ## C7 — the strict threshold gates recording and expansion -/

/-- C7: one iteration of the traversal loop of `find_contiguous_covariances`,
with the candidate `c` at the front of the queue.  When the covariance with
the seed strictly exceeds `neighbour_search_limit`, the iteration records the
pair in `non_zero_covariances`, appends `c` to the seed's neighbour list and
enqueues `c`'s unvisited neighbours (`add_neighbours_of`).  Otherwise the
iteration changes nothing except the memoization cache — the pair is not
recorded, the neighbour list is untouched, and no neighbour of `c` is
enqueued (the queue is only popped, the visited set unchanged), so the
traversal never continues through a rejected candidate; a result exactly
equal to the threshold (e.g. a zero covariance under the default limit 0)
takes the rejecting branch, since the comparison is strict. -/
theorem C7_threshold_gates_expansion (P : CovarianceMatrixGenerator) (s fuel : ℕ)
    (g : GenState) (b : BreadthFirstSearch) (c : ℕ) (rest : List ℕ)
    (hq : b.queue = c :: rest) :
    (P.neighbour_search_limit < (add_covariance_for_indices P g s c).1 →
      find_contiguous_covariances_loop P s (fuel + 1) g b =
        find_contiguous_covariances_loop P s fuel
          { (add_covariance_for_indices P g s c).2 with
            neighbour_lists :=
              (add_covariance_for_indices P g s c).2.neighbour_lists.set s
                (((add_covariance_for_indices P g s c).2.neighbour_lists.getD s []) ++ [c])
            non_zero_covariances :=
              dictSet (add_covariance_for_indices P g s c).2.non_zero_covariances (s, c)
                (add_covariance_for_indices P g s c).1 }
          (add_neighbours_of P.graph c ⟨b.visited, rest⟩)) ∧
    (¬ P.neighbour_search_limit < (add_covariance_for_indices P g s c).1 →
      (find_contiguous_covariances_loop P s (fuel + 1) g b =
        find_contiguous_covariances_loop P s fuel
          (add_covariance_for_indices P g s c).2 ⟨b.visited, rest⟩) ∧
      (add_covariance_for_indices P g s c).2.non_zero_covariances =
        g.non_zero_covariances ∧
      (add_covariance_for_indices P g s c).2.neighbour_lists = g.neighbour_lists) := by
  obtain ⟨vis, q⟩ := b
  have hq2 : q = c :: rest := hq
  subst hq2
  constructor
  · intro h
    simp only [find_contiguous_covariances_loop]
    rw [if_pos h]
  · intro h
    refine ⟨?_, add_covariance_snd_non_zero P g s c, add_covariance_snd_lists P g s c⟩
    simp only [find_contiguous_covariances_loop]
    rw [if_neg h]

/-- Witness for `C7_threshold_gates_expansion`: the passing branch on a
concrete two-pixel generator with covariance `6 > 0`. -/
theorem C7_witness :
    ((⟨{0}, [1]⟩ : BreadthFirstSearch).queue = 1 :: []) ∧
    ((⟨[[(0, 2)], [(0, 3)]], [1], [[1], [0]], 0⟩ :
        CovarianceMatrixGenerator).neighbour_search_limit <
      (add_covariance_for_indices ⟨[[(0, 2)], [(0, 3)]], [1], [[1], [0]], 0⟩
        (initial_state ⟨[[(0, 2)], [(0, 3)]], [1], [[1], [0]], 0⟩) 0 1).1) ∧
    (find_contiguous_covariances_loop ⟨[[(0, 2)], [(0, 3)]], [1], [[1], [0]], 0⟩ 0 (0 + 1)
        (initial_state ⟨[[(0, 2)], [(0, 3)]], [1], [[1], [0]], 0⟩) ⟨{0}, [1]⟩ =
      find_contiguous_covariances_loop ⟨[[(0, 2)], [(0, 3)]], [1], [[1], [0]], 0⟩ 0 0
        { (add_covariance_for_indices ⟨[[(0, 2)], [(0, 3)]], [1], [[1], [0]], 0⟩
            (initial_state ⟨[[(0, 2)], [(0, 3)]], [1], [[1], [0]], 0⟩) 0 1).2 with
          neighbour_lists :=
            (add_covariance_for_indices ⟨[[(0, 2)], [(0, 3)]], [1], [[1], [0]], 0⟩
              (initial_state ⟨[[(0, 2)], [(0, 3)]], [1], [[1], [0]], 0⟩) 0
              1).2.neighbour_lists.set 0
              (((add_covariance_for_indices ⟨[[(0, 2)], [(0, 3)]], [1], [[1], [0]], 0⟩
                (initial_state ⟨[[(0, 2)], [(0, 3)]], [1], [[1], [0]], 0⟩) 0
                1).2.neighbour_lists.getD 0 []) ++ [1])
          non_zero_covariances :=
            dictSet (add_covariance_for_indices ⟨[[(0, 2)], [(0, 3)]], [1], [[1], [0]], 0⟩
              (initial_state ⟨[[(0, 2)], [(0, 3)]], [1], [[1], [0]], 0⟩) 0
              1).2.non_zero_covariances (0, 1)
              (add_covariance_for_indices ⟨[[(0, 2)], [(0, 3)]], [1], [[1], [0]], 0⟩
                (initial_state ⟨[[(0, 2)], [(0, 3)]], [1], [[1], [0]], 0⟩) 0 1).1 }
        (add_neighbours_of [[1], [0]] 1
          ⟨(⟨{0}, [1]⟩ : BreadthFirstSearch).visited, []⟩)) := by
  have hlt : ((⟨[[(0, 2)], [(0, 3)]], [1], [[1], [0]], 0⟩ :
      CovarianceMatrixGenerator).neighbour_search_limit <
      (add_covariance_for_indices ⟨[[(0, 2)], [(0, 3)]], [1], [[1], [0]], 0⟩
        (initial_state ⟨[[(0, 2)], [(0, 3)]], [1], [[1], [0]], 0⟩) 0 1).1) := by
    norm_num [add_covariance_for_indices, initial_state, calculate_covariance, plookup,
      List.filterMap, fdiv]
  exact ⟨rfl, hlt,
    (C7_threshold_gates_expansion ⟨[[(0, 2)], [(0, 3)]], [1], [[1], [0]], 0⟩ 0 0
      (initial_state ⟨[[(0, 2)], [(0, 3)]], [1], [[1], [0]], 0⟩) ⟨{0}, [1]⟩ 1 [] rfl).1 hlt⟩

/-! ## C8 — the non-contiguous second pass -/

theorem non_contiguous_step_cache (P : CovarianceMatrixGenerator)
    (hnd : ∀ m ∈ P.pixel_maps, (m.map Prod.fst).Nodup) (x y : ℕ) (g : GenState)
    (h1 : pairdict_ok P g.calculated_covariances) :
    pairdict_ok P (non_contiguous_step P x y g).calculated_covariances := by
  unfold non_contiguous_step
  by_cases hxy : x ≠ y
  · rw [if_pos hxy]
    obtain ⟨hval, hcache⟩ := add_covariance_spec P hnd g x y h1
    by_cases hpos : 0 < (add_covariance_for_indices P g x y).1
    · rw [if_pos hpos]
      exact hcache
    · rw [if_neg hpos]
      exact hcache
  · rw [if_neg hxy]
    exact h1

/-- One innermost iteration either leaves the output dict entry at `k`
unchanged, or `k` is exactly the processed ordered pair, its covariance is
strictly positive, and the entry now holds that covariance. -/
theorem non_contiguous_step_entry (P : CovarianceMatrixGenerator)
    (hnd : ∀ m ∈ P.pixel_maps, (m.map Prod.fst).Nodup) (x y : ℕ) (g : GenState)
    (h1 : pairdict_ok P g.calculated_covariances) (k : ℕ × ℕ) :
    (non_contiguous_step P x y g).non_zero_covariances k = g.non_zero_covariances k ∨
    (k = (x, y) ∧ 0 < calculate_covariance P x y ∧
      (non_contiguous_step P x y g).non_zero_covariances k =
        some (calculate_covariance P x y)) := by
  unfold non_contiguous_step
  by_cases hxy : x ≠ y
  · rw [if_pos hxy]
    obtain ⟨hval, _⟩ := add_covariance_spec P hnd g x y h1
    by_cases hpos : 0 < (add_covariance_for_indices P g x y).1
    · rw [if_pos hpos]
      by_cases hk : k = (x, y)
      · right
        refine ⟨hk, by rw [← hval]; exact hpos, ?_⟩
        simp only [hk, dictSet_self, hval]
      · left
        simp only []
        rw [dictSet_ne _ _ _ _ hk, add_covariance_snd_non_zero]
    · rw [if_neg hpos]
      left
      rw [add_covariance_snd_non_zero]
  · rw [if_neg hxy]
    left
    rfl

theorem non_contiguous_step_keeps (P : CovarianceMatrixGenerator)
    (hnd : ∀ m ∈ P.pixel_maps, (m.map Prod.fst).Nodup) (a b x y : ℕ) (g : GenState)
    (h1 : pairdict_ok P g.calculated_covariances)
    (hE : g.non_zero_covariances (a, b) = some (calculate_covariance P a b)) :
    (non_contiguous_step P x y g).non_zero_covariances (a, b) =
      some (calculate_covariance P a b) := by
  rcases non_contiguous_step_entry P hnd x y g h1 (a, b) with h | ⟨hk, _, heq⟩
  · rw [h]
    exact hE
  · obtain ⟨hax, hby⟩ := Prod.mk.inj hk
    subst hax
    subst hby
    exact heq

theorem non_contiguous_step_nonpos (P : CovarianceMatrixGenerator)
    (hnd : ∀ m ∈ P.pixel_maps, (m.map Prod.fst).Nodup) (a b x y : ℕ) (g : GenState)
    (h1 : pairdict_ok P g.calculated_covariances)
    (hneg : ¬ 0 < calculate_covariance P a b) :
    (non_contiguous_step P x y g).non_zero_covariances (a, b) =
      g.non_zero_covariances (a, b) := by
  rcases non_contiguous_step_entry P hnd x y g h1 (a, b) with h | ⟨hk, hpos, _⟩
  · exact h
  · obtain ⟨hax, hby⟩ := Prod.mk.inj hk
    subst hax
    subst hby
    exact absurd hpos hneg

theorem inner_fold_establishes (P : CovarianceMatrixGenerator)
    (hnd : ∀ m ∈ P.pixel_maps, (m.map Prod.fst).Nodup) (a b : ℕ) (hab : a ≠ b)
    (hpos : 0 < calculate_covariance P a b) :
    ∀ (l : List ℕ), b ∈ l → ∀ g : GenState, pairdict_ok P g.calculated_covariances →
      pairdict_ok P
        ((l.foldl (fun g3 y => non_contiguous_step P a y g3) g)).calculated_covariances ∧
      (l.foldl (fun g3 y => non_contiguous_step P a y g3) g).non_zero_covariances (a, b) =
        some (calculate_covariance P a b) := by
  intro l
  induction l with
  | nil => intro hb; simp at hb
  | cons y t ih =>
    intro hb g hc
    rw [List.foldl_cons]
    by_cases hy : y = b
    · subst hy
      have hstep : (non_contiguous_step P a y g).non_zero_covariances (a, y) =
          some (calculate_covariance P a y) := by
        unfold non_contiguous_step
        rw [if_pos hab]
        obtain ⟨hval, _⟩ := add_covariance_spec P hnd g a y hc
        rw [if_pos (by rw [hval]; exact hpos)]
        simp only [dictSet_self, hval]
      have hcache2 := non_contiguous_step_cache P hnd a y g hc
      apply foldl_inv
        (fun (g2 : GenState) => pairdict_ok P g2.calculated_covariances ∧
          g2.non_zero_covariances (a, y) = some (calculate_covariance P a y))
      · exact ⟨hcache2, hstep⟩
      · intro acc x _ hacc
        exact ⟨non_contiguous_step_cache P hnd a x acc hacc.1,
          non_contiguous_step_keeps P hnd a y a x acc hacc.1 hacc.2⟩
    · have hb2 : b ∈ t := by
        rcases List.mem_cons.mp hb with h | h
        · exact absurd h.symm hy
        · exact h
      exact ih hb2 _ (non_contiguous_step_cache P hnd a y g hc)

theorem double_fold_establishes (P : CovarianceMatrixGenerator)
    (hnd : ∀ m ∈ P.pixel_maps, (m.map Prod.fst).Nodup) (a b : ℕ) (hab : a ≠ b)
    (hpos : 0 < calculate_covariance P a b) (l : List ℕ) (hbl : b ∈ l) :
    ∀ (lx : List ℕ), a ∈ lx → ∀ g : GenState, pairdict_ok P g.calculated_covariances →
      pairdict_ok P ((lx.foldl
        (fun g2 x => l.foldl (fun g3 y => non_contiguous_step P x y g3) g2)
        g)).calculated_covariances ∧
      (lx.foldl (fun g2 x => l.foldl (fun g3 y => non_contiguous_step P x y g3) g2)
        g).non_zero_covariances (a, b) = some (calculate_covariance P a b) := by
  intro lx
  induction lx with
  | nil => intro ha; simp at ha
  | cons x t ih =>
    intro ha g hc
    rw [List.foldl_cons]
    by_cases hx : x = a
    · subst hx
      obtain ⟨hcache2, hE⟩ := inner_fold_establishes P hnd x b hab hpos l hbl g hc
      apply foldl_inv
        (fun (g2 : GenState) => pairdict_ok P g2.calculated_covariances ∧
          g2.non_zero_covariances (x, b) = some (calculate_covariance P x b))
      · exact ⟨hcache2, hE⟩
      · intro acc x2 _ hacc
        apply foldl_inv
          (fun (g2 : GenState) => pairdict_ok P g2.calculated_covariances ∧
            g2.non_zero_covariances (x, b) = some (calculate_covariance P x b))
        · exact hacc
        · intro acc2 y2 _ hacc2
          exact ⟨non_contiguous_step_cache P hnd x2 y2 acc2 hacc2.1,
            non_contiguous_step_keeps P hnd x b x2 y2 acc2 hacc2.1 hacc2.2⟩
    · apply ih ((List.mem_cons.mp ha).resolve_left (fun h => hx h.symm))
      apply foldl_inv (fun (g2 : GenState) => pairdict_ok P g2.calculated_covariances)
      · exact hc
      · intro acc y _ hacc
        exact non_contiguous_step_cache P hnd x y acc hacc

theorem pass_establishes (P : CovarianceMatrixGenerator)
    (hnd : ∀ m ∈ P.pixel_maps, (m.map Prod.fst).Nodup) (a b : ℕ) (hab : a ≠ b)
    (hpos : 0 < calculate_covariance P a b) :
    ∀ (L : List (List ℕ)) (l : List ℕ), l ∈ L → a ∈ l → b ∈ l →
      ∀ g : GenState, pairdict_ok P g.calculated_covariances →
      (L.foldl (fun g1 l2 => l2.foldl
          (fun g2 x => l2.foldl (fun g3 y => non_contiguous_step P x y g3) g2) g1)
        g).non_zero_covariances (a, b) = some (calculate_covariance P a b) := by
  intro L
  induction L with
  | nil => intro l hl; simp at hl
  | cons l0 T ih =>
    intro l hl hal hbl g hc
    rw [List.foldl_cons]
    by_cases h0 : l0 = l
    · subst h0
      obtain ⟨hcache2, hE⟩ := double_fold_establishes P hnd a b hab hpos l0 hbl l0 hal g hc
      have := foldl_inv
        (fun (g2 : GenState) => pairdict_ok P g2.calculated_covariances ∧
          g2.non_zero_covariances (a, b) = some (calculate_covariance P a b))
        (fun g1 l2 => l2.foldl
          (fun g2 x => l2.foldl (fun g3 y => non_contiguous_step P x y g3) g2) g1)
        T _ ⟨hcache2, hE⟩ ?_
      · exact this.2
      · intro acc l2 _ hacc
        apply foldl_inv
          (fun (g2 : GenState) => pairdict_ok P g2.calculated_covariances ∧
            g2.non_zero_covariances (a, b) = some (calculate_covariance P a b))
        · exact hacc
        · intro acc2 x _ hacc2
          apply foldl_inv
            (fun (g2 : GenState) => pairdict_ok P g2.calculated_covariances ∧
              g2.non_zero_covariances (a, b) = some (calculate_covariance P a b))
          · exact hacc2
          · intro acc3 y _ hacc3
            exact ⟨non_contiguous_step_cache P hnd x y acc3 hacc3.1,
              non_contiguous_step_keeps P hnd a b x y acc3 hacc3.1 hacc3.2⟩
    · apply ih l ((List.mem_cons.mp hl).resolve_left (fun h => h0 h.symm)) hal hbl
      apply foldl_inv (fun (g2 : GenState) => pairdict_ok P g2.calculated_covariances)
      · exact hc
      · intro acc x _ hacc
        apply foldl_inv (fun (g2 : GenState) => pairdict_ok P g2.calculated_covariances)
        · exact hacc
        · intro acc2 y _ hacc2
          exact non_contiguous_step_cache P hnd x y acc2 hacc2

theorem pass_nonpos (P : CovarianceMatrixGenerator)
    (hnd : ∀ m ∈ P.pixel_maps, (m.map Prod.fst).Nodup) (a b : ℕ)
    (hneg : ¬ 0 < calculate_covariance P a b) (g : GenState)
    (hc : pairdict_ok P g.calculated_covariances) :
    (find_all_non_contiguous_covariances P g).non_zero_covariances (a, b) =
      g.non_zero_covariances (a, b) := by
  unfold find_all_non_contiguous_covariances
  have := foldl_inv
    (fun (g2 : GenState) => pairdict_ok P g2.calculated_covariances ∧
      g2.non_zero_covariances (a, b) = g.non_zero_covariances (a, b))
    (fun g1 l2 => l2.foldl
      (fun g2 x => l2.foldl (fun g3 y => non_contiguous_step P x y g3) g2) g1)
    g.neighbour_lists g ⟨hc, rfl⟩ ?_
  · exact this.2
  · intro acc l2 _ hacc
    apply foldl_inv
      (fun (g2 : GenState) => pairdict_ok P g2.calculated_covariances ∧
        g2.non_zero_covariances (a, b) = g.non_zero_covariances (a, b))
    · exact hacc
    · intro acc2 x _ hacc2
      apply foldl_inv
        (fun (g2 : GenState) => pairdict_ok P g2.calculated_covariances ∧
          g2.non_zero_covariances (a, b) = g.non_zero_covariances (a, b))
      · exact hacc2
      · intro acc3 y _ hacc3
        refine ⟨non_contiguous_step_cache P hnd x y acc3 hacc3.1, ?_⟩
        rw [non_contiguous_step_nonpos P hnd a b x y acc3 hacc3.1 hneg]
        exact hacc3.2

/-- C8: the second pass examines every ordered pair `(a, b)` with `a ≠ b`
drawn from a retained neighbour list.  (i) Whenever such a pair's covariance
is strictly positive, the output map ends up holding exactly that covariance
under key `(a, b)`.  (ii) Whenever a pair's covariance is not strictly
positive, the pass leaves its entry untouched — the pair is recorded by the
second pass exactly when its covariance is strictly positive. -/
theorem C8_second_pass_records_positive (pixel_maps : List PixelMap)
    (noise_vector : List ℚ) (graph : List (List ℕ)) (neighbour_search_limit : ℚ)
    (hnd : ∀ m ∈ pixel_maps, (m.map Prod.fst).Nodup) (a b : ℕ) :
    ((∃ l ∈ (contiguous_pass_state pixel_maps noise_vector graph
        neighbour_search_limit).neighbour_lists, a ∈ l ∧ b ∈ l) → a ≠ b →
      0 < calculate_covariance ⟨pixel_maps, noise_vector, graph,
        neighbour_search_limit⟩ a b →
      create_covariance_matrix pixel_maps noise_vector graph neighbour_search_limit
        (a, b) =
        some (calculate_covariance ⟨pixel_maps, noise_vector, graph,
          neighbour_search_limit⟩ a b)) ∧
    (¬ 0 < calculate_covariance ⟨pixel_maps, noise_vector, graph,
        neighbour_search_limit⟩ a b →
      create_covariance_matrix pixel_maps noise_vector graph neighbour_search_limit
        (a, b) =
        (contiguous_pass_state pixel_maps noise_vector graph
          neighbour_search_limit).non_zero_covariances (a, b)) := by
  have h0 := initial_state_ok ⟨pixel_maps, noise_vector, graph, neighbour_search_limit⟩
  have hcont := find_all_contiguous_ok ⟨pixel_maps, noise_vector, graph,
    neighbour_search_limit⟩ hnd _ h0.1 h0.2
  constructor
  · rintro ⟨l, hl, hal, hbl⟩ hab hpos
    unfold create_covariance_matrix
    unfold find_all_non_contiguous_covariances
    exact pass_establishes ⟨pixel_maps, noise_vector, graph, neighbour_search_limit⟩ hnd
      a b hab hpos _ l hl hal hbl _ hcont.1
  · intro hneg
    unfold create_covariance_matrix
    exact pass_nonpos ⟨pixel_maps, noise_vector, graph, neighbour_search_limit⟩ hnd
      a b hneg _ hcont.1

/-- Witness for `C8_second_pass_records_positive`: its not-positive branch on
two pixel maps with disjoint keys (covariance exactly 0, recorded by neither
pass beyond the diagonal). -/
theorem C8_witness :
    (¬ 0 < calculate_covariance ⟨[[(0, 1)], [(1, 1)]], [1, 1], [[1], [0]], 0⟩ 0 1) ∧
    create_covariance_matrix [[(0, 1)], [(1, 1)]] [1, 1] [[1], [0]] 0 (0, 1) =
      (contiguous_pass_state [[(0, 1)], [(1, 1)]] [1, 1] [[1], [0]]
        0).non_zero_covariances (0, 1) := by
  have hneg : ¬ 0 < calculate_covariance ⟨[[(0, 1)], [(1, 1)]], [1, 1], [[1], [0]], 0⟩
      0 1 := by
    norm_num [calculate_covariance, plookup, List.filterMap]
  exact ⟨hneg,
    (C8_second_pass_records_positive [[(0, 1)], [(1, 1)]] [1, 1] [[1], [0]] 0
      (by intro m hm; fin_cases hm <;> decide) 0 1).2 hneg⟩

/-! ## C10 — each index is enqueued at most once; the search is bounded -/

/-- Decomposition of the enqueue fold inside `add_neighbours_of`: it appends
to the queue a duplicate-free block `new` of neighbours that were unvisited
when reached, adds exactly that block to the visited set, and touches nothing
else. -/
theorem bfs_fold_decomp (ns : List ℕ) :
    ∀ st : BreadthFirstSearch, ∃ new : List ℕ,
      (ns.foldl
        (fun st2 n =>
          if n ∈ st2.visited then st2
          else { visited := insert n st2.visited, queue := st2.queue ++ [n] }) st).queue =
          st.queue ++ new ∧
      (ns.foldl
        (fun st2 n =>
          if n ∈ st2.visited then st2
          else { visited := insert n st2.visited, queue := st2.queue ++ [n] }) st).visited =
          st.visited ∪ new.toFinset ∧
      new.Nodup ∧ (∀ x ∈ new, x ∉ st.visited) ∧ (∀ x ∈ new, x ∈ ns) := by
  induction ns with
  | nil =>
    intro st
    exact ⟨[], by simp, by simp, List.nodup_nil, by simp, by simp⟩
  | cons n t ih =>
    intro st
    rw [List.foldl_cons]
    by_cases hn : n ∈ st.visited
    · rw [if_pos hn]
      obtain ⟨new, hq, hv, hnd, hfresh, hmem⟩ := ih st
      exact ⟨new, hq, hv, hnd, hfresh, fun x hx => List.mem_cons_of_mem n (hmem x hx)⟩
    · rw [if_neg hn]
      obtain ⟨new, hq, hv, hnd, hfresh, hmem⟩ :=
        ih { visited := insert n st.visited, queue := st.queue ++ [n] }
      refine ⟨n :: new, ?_, ?_, ?_, ?_, ?_⟩
      · rw [hq]
        simp
      · rw [hv]
        simp only [List.toFinset_cons]
        rw [Finset.insert_union, Finset.union_insert]
      · refine List.nodup_cons.mpr ⟨?_, hnd⟩
        intro hmem2
        exact hfresh n hmem2 (Finset.mem_insert_self n st.visited)
      · intro x hx
        rcases List.mem_cons.mp hx with h | h
        · subst h
          exact hn
        · intro hxv
          exact hfresh x h (Finset.mem_insert_of_mem hxv)
      · intro x hx
        rcases List.mem_cons.mp hx with h | h
        · rw [h]
          exact List.mem_cons_self _ _
        · exact List.mem_cons_of_mem n (hmem x h)

theorem add_neighbours_decomp (graph : List (List ℕ)) (idx : ℕ)
    (b : BreadthFirstSearch) : ∃ new : List ℕ,
      (add_neighbours_of graph idx b).queue = b.queue ++ new ∧
      (add_neighbours_of graph idx b).visited = insert idx b.visited ∪ new.toFinset ∧
      new.Nodup ∧ (∀ x ∈ new, x ∉ insert idx b.visited) ∧
      (∀ x ∈ new, x ∈ graph.getD idx []) := by
  unfold add_neighbours_of
  obtain ⟨new, hq, hv, hnd, hfresh, hmem⟩ :=
    bfs_fold_decomp (graph.getD idx []) { b with visited := insert idx b.visited }
  exact ⟨new, hq, hv, hnd, hfresh, hmem⟩

theorem mem_getD_graph (graph : List (List ℕ)) (i x : ℕ) (hx : x ∈ graph.getD i []) :
    ∃ l ∈ graph, x ∈ l := by
  rcases Nat.lt_or_ge i graph.length with h | h
  · rw [List.getD_eq_getElem?_getD, List.getElem?_eq_getElem h] at hx
    exact ⟨graph[i], List.getElem_mem h, hx⟩
  · rw [List.getD_eq_getElem?_getD, List.getElem?_eq_none (by omega)] at hx
    simp at hx

/-- The running invariant of a `BreadthFirstSearch` trace: the enqueue log is
duplicate-free, never contains the seed, contains only graph neighbours, and
is entirely inside the visited set (an index is marked visited at the moment
it is enqueued, and `add_neighbours_of` skips visited indices, so nothing is
ever enqueued twice). -/
theorem bfs_enqueue_log_spec (graph : List (List ℕ)) (seed : ℕ) (calls : List ℕ) :
    (bfs_enqueue_log graph seed calls).2.Nodup ∧
    seed ∉ (bfs_enqueue_log graph seed calls).2 ∧
    (∀ x ∈ (bfs_enqueue_log graph seed calls).2, ∃ l ∈ graph, x ∈ l) ∧
    (∀ x ∈ (bfs_enqueue_log graph seed calls).2,
      x ∈ (bfs_enqueue_log graph seed calls).1.visited) ∧
    seed ∈ (bfs_enqueue_log graph seed calls).1.visited := by
  unfold bfs_enqueue_log
  apply foldl_inv
    (fun (p : BreadthFirstSearch × List ℕ) =>
      p.2.Nodup ∧ seed ∉ p.2 ∧ (∀ x ∈ p.2, ∃ l ∈ graph, x ∈ l) ∧
      (∀ x ∈ p.2, x ∈ p.1.visited) ∧ seed ∈ p.1.visited)
  · obtain ⟨new, hq, hv, hnd, hfresh, hmem⟩ :=
      add_neighbours_decomp graph seed ⟨∅, []⟩
    simp only at hq hv
    rw [List.nil_append] at hq
    refine ⟨by rw [hq]; exact hnd, ?_, ?_, ?_, ?_⟩
    · rw [hq]
      intro hs
      exact hfresh seed hs (Finset.mem_insert_self seed ∅)
    · intro x hx
      rw [hq] at hx
      exact mem_getD_graph graph seed x (hmem x hx)
    · intro x hx
      rw [hq] at hx
      rw [hv]
      exact Finset.mem_union_right _ (List.mem_toFinset.mpr hx)
    · rw [hv]
      exact Finset.mem_union_left _ (Finset.mem_insert_self seed _)
  · rintro ⟨b, log⟩ c _ ⟨hnd, hseed, hgraph, hsub, hseedv⟩
    obtain ⟨new, hq, hv, hndnew, hfresh, hmem⟩ := add_neighbours_decomp graph c b
    simp only
    rw [hq, List.drop_left]
    have hnewfresh : ∀ x ∈ new, x ∉ b.visited := by
      intro x hx hxv
      exact hfresh x hx (Finset.mem_insert_of_mem hxv)
    refine ⟨?_, ?_, ?_, ?_, ?_⟩
    · rw [List.nodup_append]
      refine ⟨hnd, hndnew, ?_⟩
      intro x hx hxnew
      exact hnewfresh x hxnew (hsub x hx)
    · rw [List.mem_append]
      rintro (h | h)
      · exact hseed h
      · exact hnewfresh seed h hseedv
    · intro x hx
      rcases List.mem_append.mp hx with h | h
      · exact hgraph x h
      · exact mem_getD_graph graph c x (hmem x h)
    · intro x hx
      rw [hv]
      rcases List.mem_append.mp hx with h | h
      · exact Finset.mem_union_left _ (Finset.mem_insert_of_mem (hsub x h))
      · exact Finset.mem_union_right _ (List.mem_toFinset.mpr h)
    · rw [hv]
      exact Finset.mem_union_left _ (Finset.mem_insert_of_mem hseedv)

/-- C10: over any trace of `add_neighbours_of` calls beginning with the seed
(the protocol `find_contiguous_covariances` follows), the log of enqueued
indices is duplicate-free — an index added to the visited set is never
enqueued again — never contains the seed, and, when the graph's neighbour
lists are in range, has length at most `N - 1` for `N` pixels.  The
`neighbours()` generator only pops previously enqueued indices, so it yields
at most `N - 1` candidates, never yields the seed, and always terminates. -/
theorem C10_enqueued_at_most_once (graph : List (List ℕ)) (seed : ℕ) (calls : List ℕ)
    (hrange : ∀ l ∈ graph, ∀ x ∈ l, x < graph.length) (hseed : seed < graph.length) :
    (bfs_enqueue_log graph seed calls).2.Nodup ∧
    seed ∉ (bfs_enqueue_log graph seed calls).2 ∧
    (bfs_enqueue_log graph seed calls).2.length ≤ graph.length - 1 := by
  obtain ⟨hnd, hseedlog, hgr, _, _⟩ := bfs_enqueue_log_spec graph seed calls
  refine ⟨hnd, hseedlog, ?_⟩
  have hsub : (bfs_enqueue_log graph seed calls).2.toFinset ⊆
      (Finset.range graph.length).erase seed := by
    intro x hx
    rw [List.mem_toFinset] at hx
    obtain ⟨l, hl, hxl⟩ := hgr x hx
    rw [Finset.mem_erase, Finset.mem_range]
    exact ⟨fun he => hseedlog (he ▸ hx), hrange l hl x hxl⟩
  calc (bfs_enqueue_log graph seed calls).2.length
      = (bfs_enqueue_log graph seed calls).2.toFinset.card :=
        (List.toFinset_card_of_nodup hnd).symm
    _ ≤ ((Finset.range graph.length).erase seed).card := Finset.card_le_card hsub
    _ = graph.length - 1 := by
        rw [Finset.card_erase_of_mem (Finset.mem_range.mpr hseed), Finset.card_range]

/-- Witness for `C10_enqueued_at_most_once` on the two-vertex cycle. -/
theorem C10_witness :
    (∀ l ∈ ([[1], [0]] : List (List ℕ)), ∀ x ∈ l, x < 2) ∧ (0 < 2) ∧
    ((bfs_enqueue_log [[1], [0]] 0 [1]).2.Nodup ∧
      0 ∉ (bfs_enqueue_log [[1], [0]] 0 [1]).2 ∧
      (bfs_enqueue_log [[1], [0]] 0 [1]).2.length ≤ 1) :=
  ⟨by decide, by decide, C10_enqueued_at_most_once [[1], [0]] 0 [1] (by decide) (by decide)⟩

/-! ## Sufficiency of the loop fuel

The Python loop `for index in bfs.neighbours()` runs until the queue is
empty.  The two lemmas below justify the fuelled embedding: with the fuel
chosen in `find_contiguous_covariances`, the loop always reaches an empty
queue, so it computes exactly the unbounded Python loop.  The measure is the
queue length plus the number of graph vertices not yet visited: popping
shrinks the queue by one, and every enqueued vertex simultaneously leaves the
unvisited pool. -/

theorem contiguous_loop_drains (P : CovarianceMatrixGenerator) (s : ℕ) :
    ∀ (fuel : ℕ) (g : GenState) (b : BreadthFirstSearch),
      b.queue.length + (P.graph.flatten.toFinset \ b.visited).card < fuel →
      ((find_contiguous_covariances_loop P s fuel g b).2).queue = [] := by
  intro fuel
  induction fuel with
  | zero =>
    intro g b h
    omega
  | succ n ih =>
    intro g b h
    obtain ⟨vis, q⟩ := b
    cases q with
    | nil =>
      simp only [find_contiguous_covariances_loop]
    | cons c rest =>
      simp only [find_contiguous_covariances_loop]
      simp only [List.length_cons] at h
      by_cases hlt :
          P.neighbour_search_limit < (add_covariance_for_indices P g s c).1
      · rw [if_pos hlt]
        apply ih
        obtain ⟨new, hq, hv, hnd, hfresh, hmem⟩ :=
          add_neighbours_decomp P.graph c ⟨vis, rest⟩
        rw [hq, hv]
        dsimp only
        have hFJ : new.toFinset ⊆ P.graph.flatten.toFinset \ vis := by
          intro x hx
          rw [List.mem_toFinset] at hx
          rw [Finset.mem_sdiff, List.mem_toFinset]
          constructor
          · obtain ⟨l, hl, hxl⟩ := mem_getD_graph P.graph c x (hmem x hx)
            exact List.mem_flatten.mpr ⟨l, hl, hxl⟩
          · intro hxv
            exact hfresh x hx (Finset.mem_insert_of_mem hxv)
        have hsub : P.graph.flatten.toFinset \ (insert c vis ∪ new.toFinset) ⊆
            (P.graph.flatten.toFinset \ vis) \ new.toFinset := by
          intro x hx
          rw [Finset.mem_sdiff] at hx
          rw [Finset.mem_sdiff, Finset.mem_sdiff]
          refine ⟨⟨hx.1, ?_⟩, ?_⟩
          · intro hxv
            exact hx.2 (Finset.mem_union_left _ (Finset.mem_insert_of_mem hxv))
          · intro hxF
            exact hx.2 (Finset.mem_union_right _ hxF)
        have hc1 : (P.graph.flatten.toFinset \ (insert c vis ∪ new.toFinset)).card ≤
            ((P.graph.flatten.toFinset \ vis) \ new.toFinset).card :=
          Finset.card_le_card hsub
        have hc2 : ((P.graph.flatten.toFinset \ vis) \ new.toFinset).card =
            (P.graph.flatten.toFinset \ vis).card - new.toFinset.card :=
          Finset.card_sdiff hFJ
        have hc3 : new.toFinset.card ≤ (P.graph.flatten.toFinset \ vis).card :=
          Finset.card_le_card hFJ
        have hc4 : new.toFinset.card = new.length := List.toFinset_card_of_nodup hnd
        rw [List.length_append]
        omega
      · rw [if_neg hlt]
        apply ih
        simp only [List.length_cons] at *
        omega

/-- The fuel `find_contiguous_covariances` passes to the loop always empties
the queue: the fuelled loop is the Python generator loop. -/
theorem find_contiguous_fuel_sufficient (P : CovarianceMatrixGenerator) (s : ℕ)
    (g : GenState) (b : BreadthFirstSearch) :
    ((find_contiguous_covariances_loop P s (bfs_fuel P.graph b) g b).2).queue = [] := by
  apply contiguous_loop_drains
  unfold bfs_fuel
  omega
